import Mathlib

/-!
Verification development for the chay_story_assistant label-rendering engine.

Shallow embedding of `src/render.py` (text measurement, `break_long_word`,
`wrap_lines`, `fit_text`, `fit_text_in_box`, `fit_text_above_line`,
`category_from_price`), of the tips-record validators of `src/handlers.py`
(`tips_name`, `tips_goal`, `tips_link`), and of the in-memory operations of
`src/access.py` (`AccessManager`).

Modelling conventions:
- Python strings are `List Char`; Python floats are `ℚ` (exact arithmetic).
- reportlab's `stringWidth(text, font, size)` is the sum of per-character
  widths, each linear in the size; a font is a per-character width
  coefficient together with per-size ascent/descent coefficients
  (`getAscent(f, s) = asc * s`, `getDescent(f, s) = desc * s`).
- Font sizes are naturals; `range(max_size, min_size - 1, -1)` is `sizeList`.
- Python truthiness on a wrapped-lines value (`if lines:` / `... or d`) treats
  both `None` and `[]` as false; `truthySome` / `orTruthy` model this exactly.
-/

namespace Chay

abbrev Str := List Char

def wsChar (c : Char) : Bool := c.isWhitespace

/-- Python `str.strip()`: drop leading and trailing whitespace. -/
def strip (t : Str) : Str :=
  ((t.dropWhile wsChar).reverse.dropWhile wsChar).reverse

/-- The word list of a text: split on whitespace runs, dropping empty tokens.
This is what `re.sub(r"\s+", " ", text.strip())` followed by `.split(" ")`
produces (`wrap_lines`, `fit_text_above_line` normalize text this way). -/
def splitWS (t : Str) : List Str :=
  match t with
  | [] => []
  | c :: cs =>
    if wsChar c then splitWS cs
    else
      (c :: cs.takeWhile (fun d => !(wsChar d))) ::
        splitWS (cs.dropWhile (fun d => !(wsChar d)))
termination_by t.length
decreasing_by
  · simp
  · exact Nat.lt_succ_of_le (List.dropWhile_sublist _).length_le

/-- Join words with single spaces: the collapsed text
`re.sub(r"\s+", " ", text.strip())` equals `joinSp (splitWS text)`. -/
def joinSp (ws : List Str) : Str := List.intercalate ([' ']) ws

def sumLens (ws : List Str) : ℕ := (ws.map List.length).sum

/-- A font: per-character width coefficient `cw`, per-size ascent and descent
coefficients (reportlab metrics are linear in the size). -/
structure FontM where
  cw : Char → ℚ
  asc : ℚ
  desc : ℚ

/-- Model of `text_width(font_name, size, text)` = `pdfmetrics.stringWidth`:
sum of per-character widths at the given size. -/
def textWidth (f : FontM) (size : ℕ) (t : Str) : ℚ :=
  ((t.map f.cw).sum) * size

/-- The loop of `break_long_word`: walk the characters keeping `(parts, buf)`;
a character that still fits extends `buf`, otherwise `buf` (if nonempty) is
flushed and the character starts a new buffer, or (if `buf` is empty) the
character alone becomes a part. -/
def breakCore (f : FontM) (size : ℕ) (maxW : ℚ) :
    Str → Str → List Str → List Str
  | [], buf, parts => if buf = [] then parts else parts ++ [buf]
  | c :: cs, buf, parts =>
    let test := buf ++ [c]
    if textWidth f size test ≤ maxW then breakCore f size maxW cs test parts
    else if buf = [] then breakCore f size maxW cs [] (parts ++ [[c]])
    else breakCore f size maxW cs [c] (parts ++ [buf])

/-- Model of `break_long_word(word, font, size, max_width)`. -/
def breakLongWord (f : FontM) (size : ℕ) (maxW : ℚ) (w : Str) : List Str :=
  breakCore f size maxW w [] []

/-- The `while i < len(words)` loop of `wrap_lines`, with the prefix
`words[:i]` already discarded: the state is the remaining words, the current
line being accumulated, and the closed lines.  A word wider than `max_width`
is spliced into its `break_long_word` pieces and `words[i]` is re-read
(when char-breaking is disallowed the wrap fails instead); otherwise the word
is appended to the current line if the joined test string still fits, and
otherwise the current line is closed (failing if the closed-line count has
reached `max_lines`).  At loop exit a nonempty current line is flushed, and
the result is returned only if the line count is within `max_lines`. -/
def wrapLoop (f : FontM) (size : ℕ) (maxW : ℚ) (maxL : ℕ) (allow : Bool) :
    List Str → Str → List Str → Option (List Str)
  | [], cur, lines =>
    let lines' := if cur = [] then lines else lines ++ [cur]
    if lines'.length ≤ maxL then some lines' else none
  | w :: rest, cur, lines =>
    if textWidth f size w ≤ maxW then
      let test := if cur = [] then w else cur ++ ' ' :: w
      if textWidth f size test ≤ maxW then
        wrapLoop f size maxW maxL allow rest test lines
      else
        let lines' := lines ++ [cur]
        if maxL ≤ lines'.length then none
        else wrapLoop f size maxW maxL allow (w :: rest) [] lines'
    else if allow = false then none
    else
      match hbr : breakLongWord f size maxW w with
      | [] => none
      | p :: ps =>
        let test := if cur = [] then p else cur ++ ' ' :: p
        if textWidth f size test ≤ maxW then
          wrapLoop f size maxW maxL allow (ps ++ rest) test lines
        else
          let lines' := lines ++ [cur]
          if maxL ≤ lines'.length then none
          else wrapLoop f size maxW maxL allow (p :: (ps ++ rest)) [] lines'
termination_by rem cur lines => (sumLens rem, maxL - lines.length, rem.length)
decreasing_by
  all_goals
    have hsum : ∀ xs ys : List Str, sumLens (xs ++ ys) = sumLens xs + sumLens ys := by
      intro xs ys; simp [sumLens]
  all_goals
    have hcons : ∀ (x : Str) (ys : List Str), sumLens (x :: ys) = x.length + sumLens ys := by
      intro x ys; simp [sumLens]
  all_goals
    have hkey : ∀ (cs buf : Str) (parts : List Str),
        sumLens (breakCore f size maxW cs buf parts) =
          sumLens parts + buf.length + cs.length := by
      intro cs
      induction cs with
      | nil =>
        intro buf parts
        by_cases hb : buf = [] <;> simp [breakCore, hb, hsum, hcons, sumLens]
      | cons c cs ih =>
        intro buf parts
        simp only [breakCore]
        split
        · rw [ih]; simp; omega
        · split
          · rename_i hbuf
            subst hbuf
            rw [ih, hsum]; simp [sumLens]; omega
          · rw [ih, hsum]; simp [sumLens]; omega
  all_goals
    have hkne : ∀ (cs buf : Str) (parts : List Str),
        (∀ x ∈ parts, x ≠ ([] : Str)) → ∀ x ∈ breakCore f size maxW cs buf parts, x ≠ [] := by
      intro cs
      induction cs with
      | nil =>
        intro buf parts hp x hx
        by_cases hb : buf = [] <;> simp [breakCore, hb] at hx
        · exact hp x hx
        · rcases hx with hx | hx
          · exact hp x hx
          · simpa [hx] using hb
      | cons c cs ih =>
        intro buf parts hp x hx
        simp only [breakCore] at hx
        split at hx
        · exact ih _ _ hp x hx
        · split at hx
          · refine ih _ _ ?_ x hx
            intro y hy
            rcases List.mem_append.mp hy with hy | hy
            · exact hp y hy
            · simp at hy; simp [hy]
          · refine ih _ _ ?_ x hx
            intro y hy
            rcases List.mem_append.mp hy with hy | hy
            · exact hp y hy
            · simp at hy; subst hy; assumption
  · -- consumed the word: total remaining characters drop by the word length
    by_cases hw : w = []
    · subst hw
      rw [show sumLens ([] :: rest) = sumLens rest by simp [sumLens]] at *
      exact Prod.Lex.right _ (Prod.Lex.right _ (by simp))
    · exact Prod.Lex.left _ _ (by rw [hcons]; have := List.length_pos.mpr hw; omega)
  · -- closed a line without consuming: the line budget drops
    rename_i hguard
    unfold lines' at hguard
    exact Prod.Lex.right _ (Prod.Lex.left _ _ (by simp at hguard ⊢; omega))
  · -- spliced, then consumed the first piece
    have hmem : p ∈ breakCore f size maxW w [] [] := by
      unfold breakLongWord at hbr; rw [hbr]; exact List.mem_cons_self _ _
    have hpne : p ≠ [] := hkne w [] [] (by simp) p hmem
    refine Prod.Lex.left _ _ ?_
    have h1 : sumLens (p :: ps) = w.length := by
      unfold breakLongWord at hbr
      rw [← hbr]
      simpa [sumLens] using hkey w [] []
    rw [hcons] at h1
    rw [hsum, hcons]
    have := List.length_pos.mpr hpne
    omega
  · -- spliced, then closed a line: characters preserved, line budget drops
    rename_i hguard
    unfold lines' at hguard
    have h1 : sumLens (p :: (ps ++ rest)) = sumLens (w :: rest) := by
      unfold breakLongWord at hbr
      rw [hcons, hsum, hcons]
      have h2 : sumLens (p :: ps) = w.length := by
        rw [← hbr]
        simpa [sumLens] using hkey w [] []
      rw [hcons] at h2
      omega
    rw [h1]
    exact Prod.Lex.right _ (Prod.Lex.left _ _ (by simp at hguard ⊢; omega))

/-- Model of `wrap_lines(text, font_name, size, max_width, max_lines, allow_word_break)`:
normalize the text into words; empty text fails; otherwise run the loop from
an empty current line. -/
def wrapLines (f : FontM) (size : ℕ) (maxW : ℚ) (maxL : ℕ) (allow : Bool)
    (text : Str) : Option (List Str) :=
  let words := splitWS text
  if words = [] then none
  else wrapLoop f size maxW maxL allow words [] []

/-- Model of `range(max_size, min_size - 1, -1)` (`descend n s` = the `n` integers
`s, s-1, ...`). -/
def descend : ℕ → ℕ → List ℕ
  | 0, _ => []
  | n + 1, s => s :: descend n (s - 1)

def sizeList (maxS minS : ℕ) : List ℕ := descend (maxS + 1 - minS) maxS

/-- Python truthiness on an optional line list (`wrap_lines(...) or d`):
both `None` and `[]` select the default. -/
def orTruthy (o : Option (List Str)) (d : List Str) : List Str :=
  match o with
  | some (l :: ls) => l :: ls
  | _ => d

/-- The size-descending search of `fit_text` (`if lines: return size, lines`,
with Python truthiness). -/
def fitLoop (f : FontM) (maxS minS : ℕ) (maxW : ℚ) (maxL : ℕ) (allow : Bool)
    (text : Str) : Option (ℕ × List Str) :=
  (sizeList maxS minS).findSome? fun s =>
    match wrapLines f s maxW maxL allow text with
    | some (l :: ls) => some (s, l :: ls)
    | _ => none

/-- Model of `((text or "").strip()[:20] + "…").strip()`. -/
def truncLine (text : Str) : Str := strip ((strip text).take 20 ++ ('…' :: []))

/-- The min-size fallback shared by `fit_text` and `fit_text_in_box`:
re-wrap at `min_size` and, if that fails, truncate with an ellipsis. -/
def truncFallback (f : FontM) (minS : ℕ) (maxW : ℚ) (maxL : ℕ) (allow : Bool)
    (text : Str) : ℕ × List Str :=
  (minS, orTruthy (wrapLines f minS maxW maxL allow text) (truncLine text :: []))

/-- Model of `fit_text(text, font_name, max_size, min_size, max_width, max_lines,
allow_word_break)` with the unreachable trailing duplicate block removed. -/
def fitText (f : FontM) (maxS minS : ℕ) (maxW : ℚ) (maxL : ℕ) (allow : Bool)
    (text : Str) : ℕ × List Str :=
  match fitLoop f maxS minS maxW maxL allow text with
  | some r => r
  | none => truncFallback f minS maxW maxL allow text

/-- The full body of `fit_text` as written in the source, with Python
early-return semantics made explicit: the descending loop may return, then the
first fallback returns unconditionally, and only if it did not would the
trailing duplicate block (which calls `wrap_lines` without the
`allow_word_break` argument, hence with its default `True`) run.  Falling off
the end of the body is the final `.getD` default. -/
def fitTextSrc (f : FontM) (maxS minS : ℕ) (maxW : ℚ) (maxL : ℕ) (allow : Bool)
    (text : Str) : ℕ × List Str :=
  (((fitLoop f maxS minS maxW maxL allow text).orElse
      (fun _ => some (truncFallback f minS maxW maxL allow text))).orElse
    (fun _ => some (truncFallback f minS maxW maxL true text))).getD (minS, [])

/-- Model of `fit_text` with the trailing duplicate fallback block removed, in the same
early-return style as `fitTextSrc`. -/
def fitTextNoDead (f : FontM) (maxS minS : ℕ) (maxW : ℚ) (maxL : ℕ)
    (allow : Bool) (text : Str) : ℕ × List Str :=
  ((fitLoop f maxS minS maxW maxL allow text).orElse
    (fun _ => some (truncFallback f minS maxW maxL allow text))).getD (minS, [])

/-- The size-descending search of `fit_text_in_box`: a size is accepted when
the wrap succeeds (truthily) and `size * line_height * len(lines) <= max_height`. -/
def fitBoxLoop (f : FontM) (maxS minS : ℕ) (maxW : ℚ) (maxL : ℕ)
    (maxH lh : ℚ) (allow : Bool) (text : Str) : Option (ℕ × List Str) :=
  (sizeList maxS minS).findSome? fun s =>
    match wrapLines f s maxW maxL allow text with
    | some (l :: ls) =>
      if (s : ℚ) * lh * (((l :: ls).length : ℕ) : ℚ) ≤ maxH then some (s, l :: ls)
      else none
    | _ => none

/-- Model of `fit_text_in_box(...)`: the height-aware search, then the same min-size
fallback as `fit_text` (which ignores `max_height`). -/
def fitTextInBox (f : FontM) (maxS minS : ℕ) (maxW : ℚ) (maxL : ℕ)
    (maxH lh : ℚ) (allow : Bool) (text : Str) : ℕ × List Str :=
  match fitBoxLoop f maxS minS maxW maxL maxH lh allow text with
  | some r => r
  | none => truncFallback f minS maxW maxL allow text

/-- Model of `last_baseline = (y_line + clearance) + abs(getDescent(font, size))`. -/
def lastBaselineQ (f : FontM) (s : ℕ) (yMin : ℚ) : ℚ := yMin + |f.desc * s|

/-- Model of `top_glyph = last_baseline + (len(lines) - 1) * (size * line_height)
+ getAscent(font, size)`. -/
def topGlyphQ (f : FontM) (s : ℕ) (lh yMin : ℚ) (n : ℕ) : ℚ :=
  lastBaselineQ f s yMin + ((n : ℚ) - 1) * ((s : ℚ) * lh) + f.asc * s

/-- The size-descending search of `fit_text_above_line`: wrap, anchor the last
baseline `descent` above `y_line + clearance`, accept when the top glyph edge
stays below `y_top`. -/
def aboveLoop (f : FontM) (maxS minS : ℕ) (maxW : ℚ) (maxL : ℕ)
    (yTop yLine clearance lh : ℚ) (allow : Bool) (text : Str) :
    Option (ℕ × List Str × ℚ) :=
  (sizeList maxS minS).findSome? fun s =>
    match wrapLines f s maxW maxL allow text with
    | some (l :: ls) =>
      if topGlyphQ f s lh (yLine + clearance) (l :: ls).length ≤ yTop then
        some (s, l :: ls, lastBaselineQ f s (yLine + clearance))
      else none
    | _ => none

/-- Model of `fit_text_above_line(...)`: empty (whitespace-only) text returns
`(min_size, [""], y_line + clearance)` at once; otherwise the descending
search, and on exhaustion the min-size fallback whose line list is the wrap at
`min_size` or the whole collapsed text as one line, with the last baseline
clamped downward by `top_glyph - y_top` if the block still overflows the
ceiling. -/
def fitTextAboveLine (f : FontM) (maxS minS : ℕ) (maxW : ℚ) (maxL : ℕ)
    (yTop yLine clearance lh : ℚ) (allow : Bool) (text : Str) :
    ℕ × List Str × ℚ :=
  let words := splitWS text
  if words = [] then (minS, ([] : Str) :: [], yLine + clearance)
  else
    match aboveLoop f maxS minS maxW maxL yTop yLine clearance lh allow text with
    | some r => r
    | none =>
      let yMin := yLine + clearance
      let ls := orTruthy (wrapLines f minS maxW maxL allow text) (joinSp words :: [])
      let lastB := lastBaselineQ f minS yMin
      let topG := topGlyphQ f minS lh yMin ls.length
      if topG ≤ yTop then (minS, ls, lastB)
      else (minS, ls, lastB - (topG - yTop))

/-- Greedy single-line consumption (proof aid for the `allow_word_break=False`
behaviour of the wrap loop): keep appending words to `cur` while the joined
test string fits. -/
def takeLine (f : FontM) (size : ℕ) (maxW : ℚ) : Str → List Str → Str × List Str
  | cur, [] => (cur, [])
  | cur, w :: rest =>
    let test := if cur = [] then w else cur ++ ' ' :: w
    if textWidth f size test ≤ maxW then takeLine f size maxW test rest
    else (cur, w :: rest)

/-- Number of lines the `allow_word_break=False` greedy wrap produces from a
partial line `cur` and remaining words (proof aid); `none` when a word is
wider than `max_width` on its own. -/
def countFrom (f : FontM) (size : ℕ) (maxW : ℚ) : Str → List Str → Option ℕ
  | cur, [] => some (if cur = [] then 0 else 1)
  | cur, w :: rest =>
    if textWidth f size w ≤ maxW then
      match htl : takeLine f size maxW cur (w :: rest) with
      | (_, []) => some 1
      | (_, r0 :: rs) => (countFrom f size maxW [] (r0 :: rs)).map (· + 1)
    else none
termination_by cur rem => (rem.length, if cur = [] then 0 else 1)
decreasing_by
  have hlen : ∀ (c : Str) (rem : List Str),
      (takeLine f size maxW c rem).2.length ≤ rem.length := by
    intro c rem
    induction rem generalizing c with
    | nil => simp [takeLine]
    | cons u urest ih =>
      simp only [takeLine]
      split <;> split
      · exact (ih _).trans (Nat.le_succ _)
      · simp
      · exact (ih _).trans (Nat.le_succ _)
      · simp
  have hstep : ∀ (c x : Str) (l : List Str) (y : Str) (q0 : Str) (qs : List Str),
      takeLine f size maxW c (x :: l) = (y, q0 :: qs) →
      textWidth f size x ≤ maxW →
      (q0 :: qs).length < (x :: l).length ∨
        ((q0 :: qs).length = (x :: l).length ∧ c ≠ []) := by
    intro c x l y q0 qs heq hx
    have h1 : (q0 :: qs).length ≤ (x :: l).length := by
      have h2 := hlen c (x :: l)
      rw [heq] at h2
      exact h2
    by_cases hc : c = []
    · subst hc
      left
      have h3 : takeLine f size maxW [] (x :: l) = takeLine f size maxW x l := by
        simp [takeLine, hx]
      have h4 := hlen x l
      rw [← h3, heq] at h4
      simp at h4 ⊢
      omega
    · rcases lt_or_eq_of_le h1 with h | h
      · exact Or.inl h
      · exact Or.inr ⟨h, hc⟩
  rcases hstep _ _ _ _ _ _ htl (by assumption) with h | ⟨h, hne⟩
  · exact Prod.Lex.left _ _ h
  · rw [h]
    exact Prod.Lex.right _ (by simp [hne])

/-- Model of `category_from_price(price)` from `src/render.py`. -/
def categoryFromPrice (price : ℤ) : String :=
  if price ≤ 20 then "A"
  else if price ≤ 35 then "A+"
  else if price ≤ 55 then "A++"
  else "ПРЕМИУМ"

/-- ASCII lower-casing, modelling the `re.I` flag on the pattern
`^https?://` (whose letters are ASCII). -/
def lowerAscii (c : Char) : Char :=
  if 'A' ≤ c ∧ c ≤ 'Z' then Char.ofNat (c.toNat + 32) else c

/-- Model of `re.match(r"^https?://", link, flags=re.I)` as a Boolean test. -/
def httpMatch (l : Str) : Bool :=
  ("http://".toList).isPrefixOf (l.map lowerAscii) ||
    ("https://".toList).isPrefixOf (l.map lowerAscii)

/-- The `tips_name` handler of `src/handlers.py`: strip the message text,
reject empty or longer than 40 characters, otherwise store the stripped name. -/
def tipsName (raw : Str) : Option Str :=
  let t := strip raw
  if t = [] ∨ 40 < t.length then none else some t

/-- The `tips_goal` handler: strip, reject empty or longer than 80 characters. -/
def tipsGoal (raw : Str) : Option Str :=
  let t := strip raw
  if t = [] ∨ 80 < t.length then none else some t

/-- The `tips_link` handler: strip, reject empty or longer than 300
characters, then reject links not matching `^https?://` (case-insensitive);
an accepted link is passed to `make_pdf_tips_two_sides` verbatim. -/
def tipsLink (raw : Str) : Option Str :=
  let l := strip raw
  if l = [] ∨ 300 < l.length then none
  else if httpMatch l then some l else none

/-- A tips record reaches `make_pdf_tips_two_sides` exactly when each of the
three FSM handlers accepted its field. -/
def tipsReaches (name goal link : Str) : Prop :=
  (∃ r1, tipsName r1 = some name) ∧ (∃ r2, tipsGoal r2 = some goal) ∧
    (∃ r3, tipsLink r3 = some link)

/-- The in-memory state of `AccessManager` from `src/access.py`
(the JSON persistence is I/O and not modelled). -/
structure AccessState where
  adminIds : Finset ℤ
  allowedIds : Finset ℤ

def AccessState.isAdmin (s : AccessState) (u : ℤ) : Prop := u ∈ s.adminIds

def AccessState.isAllowed (s : AccessState) (u : ℤ) : Prop :=
  s.isAdmin u ∨ u ∈ s.allowedIds

instance (s : AccessState) (u : ℤ) : Decidable (s.isAllowed u) := by
  unfold AccessState.isAllowed AccessState.isAdmin
  infer_instance

/-- Model of `add_user`: admins are never added to the allowed set. -/
def AccessState.addUser (s : AccessState) (u : ℤ) : AccessState :=
  if u ∈ s.adminIds then s
  else { s with allowedIds := insert u s.allowedIds }

/-- Model of `del_user`: removes from the allowed set only. -/
def AccessState.delUser (s : AccessState) (u : ℤ) : AccessState :=
  if u ∈ s.allowedIds then { s with allowedIds := s.allowedIds.erase u }
  else s

inductive AccessOp where
  | add (u : ℤ)
  | del (u : ℤ)

def AccessState.applyOp (s : AccessState) : AccessOp → AccessState
  | .add u => s.addUser u
  | .del u => s.delUser u

def AccessState.applyOps (s : AccessState) (ops : List AccessOp) : AccessState :=
  ops.foldl AccessState.applyOp s

/-- Concrete 300-character link used to refute the total-length reading. -/
def c7link : Str := ("https://".toList) ++ List.replicate 292 'a'

/-- Concrete font used by several witnesses: every character has width 0. -/
def fontZero : FontM := ⟨fun _ => 0, 1, 1⟩

/-- The property claimed of a triple returned by `fit_text_above_line`:
either the last baseline sits `descent` above `y_line + clearance` (so the
lowest glyph edge clears the guide line) and the top glyph edge stays at or
below the ceiling, or (clamp fallback) the top glyph edge sits exactly at the
ceiling. -/
def aboveClaimOK (f : FontM) (yTop yLine clearance lh : ℚ)
    (r : ℕ × List Str × ℚ) : Prop :=
  (yLine + clearance ≤ r.2.2 - |f.desc * (r.1 : ℚ)| ∧
      r.2.2 + ((r.2.1.length : ℚ) - 1) * ((r.1 : ℚ) * lh) + f.asc * r.1 ≤ yTop) ∨
    r.2.2 + ((r.2.1.length : ℚ) - 1) * ((r.1 : ℚ) * lh) + f.asc * r.1 = yTop

/-- Font used in the C1 counterexample: ascent 5 and descent 2 per size unit. -/
def fontCx1 : FontM := ⟨fun _ => 0, 5, 2⟩

/-- Concrete font with every character one unit wide. -/
def fontOne : FontM := ⟨fun _ => 1, 1, 1⟩

/-- Joining one more word onto a partial line, as the wrap loop tests it. -/
def glue (cur w : Str) : Str := if cur = [] then w else cur ++ ' ' :: w

/-- Folding a word list onto a partial line. -/
def glueList (cur : Str) (ws : List Str) : Str := ws.foldl glue cur

/-- Font used in the C4 counterexample: character widths a=2, b=3, c=4, d=1,
space=1 per size unit. -/
def fontCx4 : FontM :=
  ⟨fun c => if c = 'a' then 2 else if c = 'b' then 3 else if c = 'c' then 4
    else if c = 'd' then 1 else if c = ' ' then 1 else 0, 1, 1⟩

/-! ### Basic lemmas about the embedded definitions -/

theorem sumLens_append (xs ys : List Str) :
    sumLens (xs ++ ys) = sumLens xs + sumLens ys := by
  simp [sumLens]

theorem sumLens_cons (x : Str) (ys : List Str) :
    sumLens (x :: ys) = x.length + sumLens ys := by
  simp [sumLens]

theorem breakCore_ne_nil (f : FontM) (size : ℕ) (maxW : ℚ) :
    ∀ (cs buf : Str) (parts : List Str),
      (∀ x ∈ parts, x ≠ ([] : Str)) → ∀ x ∈ breakCore f size maxW cs buf parts, x ≠ [] := by
  intro cs
  induction cs with
  | nil =>
    intro buf parts hp x hx
    by_cases hb : buf = [] <;> simp [breakCore, hb] at hx
    · exact hp x hx
    · rcases hx with hx | hx
      · exact hp x hx
      · simpa [hx] using hb
  | cons c cs ih =>
    intro buf parts hp x hx
    simp only [breakCore] at hx
    split at hx
    · exact ih _ _ hp x hx
    · split at hx
      · refine ih _ _ ?_ x hx
        intro y hy
        rcases List.mem_append.mp hy with hy | hy
        · exact hp y hy
        · simp at hy; simp [hy]
      · refine ih _ _ ?_ x hx
        intro y hy
        rcases List.mem_append.mp hy with hy | hy
        · exact hp y hy
        · simp at hy; subst hy; assumption

theorem breakLongWord_mem_ne_nil (f : FontM) (size : ℕ) (maxW : ℚ) (w p : Str)
    (hp : p ∈ breakLongWord f size maxW w) : p ≠ [] :=
  breakCore_ne_nil f size maxW w [] [] (by simp) p hp

theorem splitWS_mem_ne_nil (t : Str) : ∀ w ∈ splitWS t, w ≠ [] := by
  induction t using splitWS.induct with
  | case1 => simp [splitWS]
  | case2 c cs hws ih =>
    intro w hw
    rw [splitWS, if_pos hws] at hw
    exact ih w hw
  | case3 c cs hws ih =>
    intro w hw
    rw [splitWS, if_neg hws] at hw
    rcases List.mem_cons.mp hw with hw | hw
    · simp [hw]
    · exact ih w hw

theorem findSome_mem {α β : Type} (l : List α) (P : α → Option β) (b : β)
    (h : l.findSome? P = some b) : ∃ a ∈ l, P a = some b := by
  induction l with
  | nil => simp [List.findSome?] at h
  | cons a t ih =>
    rw [List.findSome?] at h
    cases hPa : P a with
    | some c =>
      simp [hPa] at h
      exact ⟨a, by simp, by rw [hPa, h]⟩
    | none =>
      simp [hPa] at h
      obtain ⟨x, hx, hPx⟩ := ih h
      exact ⟨x, by simp [hx], hPx⟩

theorem findSome_isSome {α β : Type} (l : List α) (P : α → Option β) (a : α)
    (ha : a ∈ l) (h : (P a).isSome) : (l.findSome? P).isSome := by
  induction l with
  | nil => simp at ha
  | cons x t ih =>
    rw [List.findSome?]
    cases hPx : P x with
    | some c => simp
    | none =>
      rcases List.mem_cons.mp ha with rfl | ha
      · rw [hPx] at h; simp at h
      · exact ih ha

theorem descend_mem_le : ∀ (n s x : ℕ), x ∈ descend n s → x ≤ s := by
  intro n
  induction n with
  | zero => intro s x hx; simp [descend] at hx
  | succ n ih =>
    intro s x hx
    rw [descend] at hx
    rcases List.mem_cons.mp hx with rfl | hx
    · exact le_refl _
    · exact le_trans (ih _ _ hx) (Nat.sub_le _ _)

theorem descend_mem_lower : ∀ (n s x : ℕ), x ∈ descend n s → s + 1 - n ≤ x := by
  intro n
  induction n with
  | zero => intro s x hx; simp [descend] at hx
  | succ n ih =>
    intro s x hx
    rw [descend] at hx
    rcases List.mem_cons.mp hx with rfl | hx
    · omega
    · have := ih _ _ hx
      omega

theorem sizeList_mem_bounds (maxS minS x : ℕ) (hx : x ∈ sizeList maxS minS) :
    minS ≤ x ∧ x ≤ maxS := by
  have h1 := descend_mem_le _ _ _ hx
  have h2 := descend_mem_lower _ _ _ hx
  have h3 : 0 < maxS + 1 - minS := by
    by_contra h
    have : maxS + 1 - minS = 0 := by omega
    rw [sizeList, this] at hx
    simp [descend] at hx
  exact ⟨by omega, h1⟩

theorem descend_findSome_ge {β : Type} (val : β → ℕ) (P : ℕ → Option β)
    (hshape : ∀ s b, P s = some b → val b = s) :
    ∀ (n s s0 : ℕ), s0 ∈ descend n s → (P s0).isSome →
      ∃ b, (descend n s).findSome? P = some b ∧ s0 ≤ val b := by
  intro n
  induction n with
  | zero => intro s s0 h; simp [descend] at h
  | succ n ih =>
    intro s s0 hmem hP
    rw [descend] at hmem ⊢
    rw [List.findSome?]
    cases hPs : P s with
    | some b =>
      refine ⟨b, rfl, ?_⟩
      rw [hshape s b hPs]
      rcases List.mem_cons.mp hmem with rfl | hmem
      · exact le_refl _
      · exact le_trans (descend_mem_le _ _ _ hmem) (Nat.sub_le _ _)
    | none =>
      rcases List.mem_cons.mp hmem with rfl | hmem
      · rw [hPs] at hP; simp at hP
      · exact ih _ _ hmem hP

/-! ### C8: price tiers -/

/-- C8: `category_from_price` maps `price ≤ 20` to "A", `20 < price ≤ 35` to
"A+", `35 < price ≤ 55` to "A++" and `55 < price` to the top tier "ПРЕМИУМ",
with inclusive upper bounds; in particular 20→"A", 21→"A+", 35→"A+",
36→"A++", 55→"A++", 56→"ПРЕМИУМ". -/
theorem categoryFromPrice_tiers :
    (∀ p : ℤ,
      (categoryFromPrice p = "A" ↔ p ≤ 20) ∧
      (categoryFromPrice p = "A+" ↔ 20 < p ∧ p ≤ 35) ∧
      (categoryFromPrice p = "A++" ↔ 35 < p ∧ p ≤ 55) ∧
      (categoryFromPrice p = "ПРЕМИУМ" ↔ 55 < p)) ∧
    categoryFromPrice 20 = "A" ∧ categoryFromPrice 21 = "A+" ∧
    categoryFromPrice 35 = "A+" ∧ categoryFromPrice 36 = "A++" ∧
    categoryFromPrice 55 = "A++" ∧ categoryFromPrice 56 = "ПРЕМИУМ" := by
  refine ⟨?_, by decide, by decide, by decide, by decide, by decide, by decide⟩
  intro p
  by_cases h1 : p ≤ 20 <;> by_cases h2 : p ≤ 35 <;> by_cases h3 : p ≤ 55 <;>
    simp [categoryFromPrice, h1, h2, h3] <;> omega

/-! ### C10: admin access invariant -/

theorem applyOp_adminIds (s : AccessState) (op : AccessOp) :
    (s.applyOp op).adminIds = s.adminIds := by
  cases op <;> simp only [AccessState.applyOp, AccessState.addUser, AccessState.delUser] <;>
    split <;> rfl

/-- C10: an admin id is allowed in every state reachable by any sequence of
`add_user` / `del_user` operations (`del_user` never revokes an admin, since
it only touches `allowed_ids` and `is_allowed` checks `admin_ids` first), and
`add_user` on an admin id leaves the state unchanged. -/
theorem accessAdmin_invariant (s : AccessState) (a : ℤ) (ops : List AccessOp)
    (ha : a ∈ s.adminIds) :
    (s.applyOps ops).isAllowed a ∧ s.addUser a = s := by
  constructor
  · have hadm : ∀ (l : List AccessOp) (st : AccessState),
        a ∈ st.adminIds → a ∈ (st.applyOps l).adminIds := by
      intro l
      induction l with
      | nil => intro st h; simpa [AccessState.applyOps] using h
      | cons op t ih =>
        intro st h
        have h2 : st.applyOps (op :: t) = (st.applyOp op).applyOps t := by
          simp [AccessState.applyOps]
        rw [h2]
        exact ih _ (by rw [applyOp_adminIds]; exact h)
    exact Or.inl (hadm ops s ha)
  · simp [AccessState.addUser, ha]

/-- Witness for C10 at a concrete state, admin id and operation sequence. -/
theorem accessAdmin_invariant_witness :
    ((AccessState.mk {1} ∅).applyOps
        (AccessOp.del 1 :: AccessOp.add 1 :: AccessOp.del 1 :: [])).isAllowed 1 ∧
      (AccessState.mk {1} ∅).addUser 1 = AccessState.mk {1} ∅ :=
  accessAdmin_invariant (AccessState.mk {1} ∅) 1 _ (by decide)

/-! ### C9: the dead duplicate fallback in fit_text -/

/-- C9: the trailing duplicate fallback block of `fit_text` (a second
min-size re-wrap and truncation placed after an unconditional `return`) is
unreachable: the function as written equals the function with the block
removed, which in turn is the single-fallback `fitText` used throughout this
development. -/
theorem fitText_dead_fallback (f : FontM) (maxS minS : ℕ) (maxW : ℚ)
    (maxL : ℕ) (allow : Bool) (text : Str) :
    fitTextSrc f maxS minS maxW maxL allow text =
        fitTextNoDead f maxS minS maxW maxL allow text ∧
      fitTextNoDead f maxS minS maxW maxL allow text =
        fitText f maxS minS maxW maxL allow text := by
  constructor
  · unfold fitTextSrc fitTextNoDead
    cases h : fitLoop f maxS minS maxW maxL allow text <;> rfl
  · unfold fitTextNoDead fitText
    cases h : fitLoop f maxS minS maxW maxL allow text <;> rfl

/-! ### C7: tips record validation -/

set_option maxRecDepth 4000 in
/-- C7 counterexample: the 300-character bound of the link handler applies to
the link alone, not to the whole record: the triple (name "N", goal "G",
`c7link`) passes all three handlers (so it reaches
`make_pdf_tips_two_sides`) although its total length is 302 > 300. -/
theorem tips_total_length_cx :
    tipsReaches ('N' :: []) ('G' :: []) c7link ∧
      300 < ('N' :: []).length + ('G' :: []).length + c7link.length := by
  refine ⟨⟨⟨'N' :: [], ?_⟩, ⟨'G' :: [], ?_⟩, ⟨c7link, ?_⟩⟩, ?_⟩
  · decide
  · decide
  · decide
  · decide

/-- C7 (amended): a triple that reaches `make_pdf_tips_two_sides` has a name
of 1–40 characters, a goal of 1–80 characters, and a link matching
`^https?://` of 1–300 characters; the ≤ 300 bound applies to the link, not to
the total record length. -/
theorem tips_reach_bounds (n g l : Str) (h : tipsReaches n g l) :
    (1 ≤ n.length ∧ n.length ≤ 40) ∧ (1 ≤ g.length ∧ g.length ≤ 80) ∧
      httpMatch l = true ∧ 1 ≤ l.length ∧ l.length ≤ 300 := by
  obtain ⟨⟨r1, h1⟩, ⟨r2, h2⟩, ⟨r3, h3⟩⟩ := h
  simp only [tipsName] at h1
  simp only [tipsGoal] at h2
  simp only [tipsLink] at h3
  split at h1
  · exact absurd h1 (by simp)
  · rename_i hc1
    push_neg at hc1
    obtain ⟨hne1, hlen1⟩ := hc1
    obtain rfl : strip r1 = n := by simpa using h1
    split at h2
    · exact absurd h2 (by simp)
    · rename_i hc2
      push_neg at hc2
      obtain ⟨hne2, hlen2⟩ := hc2
      obtain rfl : strip r2 = g := by simpa using h2
      split at h3
      · exact absurd h3 (by simp)
      · rename_i hc3
        push_neg at hc3
        obtain ⟨hne3, hlen3⟩ := hc3
        split at h3
        · rename_i hhttp
          obtain rfl : strip r3 = l := by simpa using h3
          refine ⟨⟨?_, hlen1⟩, ⟨?_, hlen2⟩, hhttp, ?_, hlen3⟩
          · exact List.length_pos.mpr hne1
          · exact List.length_pos.mpr hne2
          · exact List.length_pos.mpr hne3
        · exact absurd h3 (by simp)

/-- Witness for the amended C7 at a concrete accepted triple. -/
theorem tips_reach_bounds_witness :
    (1 ≤ ('N' :: []).length ∧ ('N' :: []).length ≤ 40) ∧
      (1 ≤ ('G' :: []).length ∧ ('G' :: []).length ≤ 80) ∧
      httpMatch ("http://x".toList) = true ∧
      1 ≤ ("http://x".toList).length ∧ ("http://x".toList).length ≤ 300 :=
  tips_reach_bounds ('N' :: []) ('G' :: []) ("http://x".toList)
    ⟨⟨'N' :: [], by decide⟩, ⟨'G' :: [], by decide⟩, ⟨"http://x".toList, by decide⟩⟩

/-! ### Specifications of the descending-size searches -/

theorem fitLoop_spec (f : FontM) (maxS minS : ℕ) (maxW : ℚ) (maxL : ℕ)
    (allow : Bool) (text : Str) (r : ℕ × List Str)
    (h : fitLoop f maxS minS maxW maxL allow text = some r) :
    r.1 ∈ sizeList maxS minS ∧
      wrapLines f r.1 maxW maxL allow text = some r.2 ∧ r.2 ≠ [] := by
  obtain ⟨s, hs, hP⟩ := findSome_mem _ _ _ h
  cases hw : wrapLines f s maxW maxL allow text with
  | none => rw [hw] at hP; simp at hP
  | some ls =>
    cases ls with
    | nil => rw [hw] at hP; simp at hP
    | cons l t =>
      rw [hw] at hP
      simp only [Option.some.injEq] at hP
      subst hP
      exact ⟨hs, by simpa using hw, by simp⟩

theorem fitBoxLoop_spec (f : FontM) (maxS minS : ℕ) (maxW : ℚ) (maxL : ℕ)
    (maxH lh : ℚ) (allow : Bool) (text : Str) (r : ℕ × List Str)
    (h : fitBoxLoop f maxS minS maxW maxL maxH lh allow text = some r) :
    r.1 ∈ sizeList maxS minS ∧
      wrapLines f r.1 maxW maxL allow text = some r.2 ∧ r.2 ≠ [] ∧
      (r.1 : ℚ) * lh * ((r.2.length : ℕ) : ℚ) ≤ maxH := by
  obtain ⟨s, hs, hP⟩ := findSome_mem _ _ _ h
  cases hw : wrapLines f s maxW maxL allow text with
  | none => rw [hw] at hP; simp at hP
  | some ls =>
    cases ls with
    | nil => rw [hw] at hP; simp at hP
    | cons l t =>
      rw [hw] at hP
      by_cases hh : (s : ℚ) * lh * (((l :: t).length : ℕ) : ℚ) ≤ maxH
      · simp only [if_pos hh, Option.some.injEq] at hP
        subst hP
        exact ⟨hs, by simpa using hw, by simp, hh⟩
      · simp only [if_neg hh] at hP
        exact absurd hP (by simp)

theorem aboveLoop_spec (f : FontM) (maxS minS : ℕ) (maxW : ℚ) (maxL : ℕ)
    (yTop yLine clearance lh : ℚ) (allow : Bool) (text : Str)
    (r : ℕ × List Str × ℚ)
    (h : aboveLoop f maxS minS maxW maxL yTop yLine clearance lh allow text = some r) :
    r.1 ∈ sizeList maxS minS ∧
      wrapLines f r.1 maxW maxL allow text = some r.2.1 ∧ r.2.1 ≠ [] ∧
      r.2.2 = lastBaselineQ f r.1 (yLine + clearance) ∧
      topGlyphQ f r.1 lh (yLine + clearance) r.2.1.length ≤ yTop := by
  obtain ⟨s, hs, hP⟩ := findSome_mem _ _ _ h
  cases hw : wrapLines f s maxW maxL allow text with
  | none => rw [hw] at hP; simp at hP
  | some ls =>
    cases ls with
    | nil => rw [hw] at hP; simp at hP
    | cons l t =>
      rw [hw] at hP
      by_cases hh : topGlyphQ f s lh (yLine + clearance) (l :: t).length ≤ yTop
      · simp only [if_pos hh, Option.some.injEq] at hP
        subst hP
        exact ⟨hs, by simpa using hw, by simp, rfl, hh⟩
      · simp only [if_neg hh] at hP
        exact absurd hP (by simp)

/-! ### The wrap loop never returns an empty line list -/

theorem wrapLoop_nil_eq (f : FontM) (size : ℕ) (maxW : ℚ) (maxL : ℕ)
    (allow : Bool) (cur : Str) (lines : List Str) :
    wrapLoop f size maxW maxL allow [] cur lines =
      if (if cur = [] then lines else lines ++ [cur]).length ≤ maxL
      then some (if cur = [] then lines else lines ++ [cur]) else none := by
  rw [wrapLoop]

theorem wrapLoop_cons_eq (f : FontM) (size : ℕ) (maxW : ℚ) (maxL : ℕ)
    (allow : Bool) (w : Str) (rest : List Str) (cur : Str) (lines : List Str) :
    wrapLoop f size maxW maxL allow (w :: rest) cur lines =
      if textWidth f size w ≤ maxW then
        (if textWidth f size (if cur = [] then w else cur ++ ' ' :: w) ≤ maxW then
          wrapLoop f size maxW maxL allow rest
            (if cur = [] then w else cur ++ ' ' :: w) lines
        else if maxL ≤ (lines ++ [cur]).length then none
        else wrapLoop f size maxW maxL allow (w :: rest) [] (lines ++ [cur]))
      else if allow = false then none
      else
        match breakLongWord f size maxW w with
        | [] => none
        | p :: ps =>
          if textWidth f size (if cur = [] then p else cur ++ ' ' :: p) ≤ maxW then
            wrapLoop f size maxW maxL allow (ps ++ rest)
              (if cur = [] then p else cur ++ ' ' :: p) lines
          else if maxL ≤ (lines ++ [cur]).length then none
          else wrapLoop f size maxW maxL allow (p :: (ps ++ rest)) [] (lines ++ [cur]) := by
  rw [wrapLoop]
  cases hx : breakLongWord f size maxW w <;> rfl

theorem wrapLoop_some_ne_nil (f : FontM) (size : ℕ) (maxW : ℚ) (maxL : ℕ)
    (allow : Bool) (rem : List Str) (cur : Str) (lines : List Str) :
    (∀ x ∈ rem, x ≠ []) → (lines ≠ [] ∨ cur ≠ [] ∨ rem ≠ []) →
    ∀ ls, wrapLoop f size maxW maxL allow rem cur lines = some ls → ls ≠ [] := by
  induction rem, cur, lines using wrapLoop.induct f size maxW maxL allow with
  | case1 cur lines lines0 hle =>
    intro hne hd ls hls
    rw [wrapLoop_nil_eq] at hls
    have hle2 : (if cur = [] then lines else lines ++ [cur]).length ≤ maxL := hle
    rw [if_pos hle2, Option.some.injEq] at hls
    subst hls
    by_cases hc : cur = []
    · rw [if_pos hc]
      rcases hd with h | h | h
      · exact h
      · exact absurd hc h
      · simp at h
    · rw [if_neg hc]
      simp
  | case2 cur lines lines0 hle =>
    intro hne hd ls hls
    rw [wrapLoop_nil_eq] at hls
    have hle2 : ¬ (if cur = [] then lines else lines ++ [cur]).length ≤ maxL := hle
    rw [if_neg hle2] at hls
    simp at hls
  | case3 w rest cur lines hw tst htest ih =>
    intro hne hd ls hls
    rw [wrapLoop_cons_eq] at hls
    have ht2 : textWidth f size (if cur = [] then w else cur ++ ' ' :: w) ≤ maxW := htest
    rw [if_pos hw, if_pos ht2] at hls
    refine ih (fun x hx => hne x (by simp [hx])) (Or.inr (Or.inl ?_)) ls hls
    show ¬ (if cur = [] then w else cur ++ ' ' :: w) = []
    by_cases hc : cur = []
    · simpa [hc] using hne w (by simp)
    · simp [hc]
  | case4 w rest cur lines hw tst htest lines0 hfull =>
    intro hne hd ls hls
    rw [wrapLoop_cons_eq] at hls
    have ht2 : ¬ textWidth f size (if cur = [] then w else cur ++ ' ' :: w) ≤ maxW := htest
    have hf2 : maxL ≤ (lines ++ [cur]).length := hfull
    rw [if_pos hw, if_neg ht2, if_pos hf2] at hls
    simp at hls
  | case5 w rest cur lines hw tst htest lines0 hfull ih =>
    intro hne hd ls hls
    rw [wrapLoop_cons_eq] at hls
    have ht2 : ¬ textWidth f size (if cur = [] then w else cur ++ ' ' :: w) ≤ maxW := htest
    have hf2 : ¬ maxL ≤ (lines ++ [cur]).length := hfull
    rw [if_pos hw, if_neg ht2, if_neg hf2] at hls
    refine ih hne (Or.inl ?_) ls hls
    show ¬ (lines ++ [cur]) = []
    simp
  | case6 w rest cur lines hw hallow =>
    intro hne hd ls hls
    rw [wrapLoop_cons_eq] at hls
    rw [if_neg hw, if_pos hallow] at hls
    simp at hls
  | case7 w rest cur lines hw hallow hbr =>
    intro hne hd ls hls
    rw [wrapLoop_cons_eq] at hls
    rw [if_neg hw, if_neg hallow] at hls
    simp only [hbr] at hls
    exact absurd hls (by simp)
  | case8 w rest cur lines hw hallow p ps hbr tst htest ih =>
    intro hne hd ls hls
    rw [wrapLoop_cons_eq] at hls
    rw [if_neg hw, if_neg hallow] at hls
    simp only [hbr] at hls
    have ht2 : textWidth f size (if cur = [] then p else cur ++ ' ' :: p) ≤ maxW := htest
    rw [if_pos ht2] at hls
    refine ih ?_ (Or.inr (Or.inl ?_)) ls hls
    · intro x hx
      rcases List.mem_append.mp hx with hx | hx
      · exact breakLongWord_mem_ne_nil f size maxW w x (by rw [hbr]; simp [hx])
      · exact hne x (by simp [hx])
    · have hp : p ≠ [] :=
        breakLongWord_mem_ne_nil f size maxW w p (by rw [hbr]; simp)
      show ¬ (if cur = [] then p else cur ++ ' ' :: p) = []
      by_cases hc : cur = []
      · simpa [hc] using hp
      · simp [hc]
  | case9 w rest cur lines hw hallow p ps hbr tst htest lines0 hfull =>
    intro hne hd ls hls
    rw [wrapLoop_cons_eq] at hls
    rw [if_neg hw, if_neg hallow] at hls
    simp only [hbr] at hls
    have ht2 : ¬ textWidth f size (if cur = [] then p else cur ++ ' ' :: p) ≤ maxW := htest
    have hf2 : maxL ≤ (lines ++ [cur]).length := hfull
    rw [if_neg ht2, if_pos hf2] at hls
    simp at hls
  | case10 w rest cur lines hw hallow p ps hbr tst htest lines0 hfull ih =>
    intro hne hd ls hls
    rw [wrapLoop_cons_eq] at hls
    rw [if_neg hw, if_neg hallow] at hls
    simp only [hbr] at hls
    have ht2 : ¬ textWidth f size (if cur = [] then p else cur ++ ' ' :: p) ≤ maxW := htest
    have hf2 : ¬ maxL ≤ (lines ++ [cur]).length := hfull
    rw [if_neg ht2, if_neg hf2] at hls
    refine ih ?_ (Or.inl ?_) ls hls
    · intro x hx
      rcases List.mem_cons.mp hx with rfl | hx
      · exact breakLongWord_mem_ne_nil f size maxW w x (by rw [hbr]; simp)
      · rcases List.mem_append.mp hx with hx | hx
        · exact breakLongWord_mem_ne_nil f size maxW w x (by rw [hbr]; simp [hx])
        · exact hne x (by simp [hx])
    · show ¬ (lines ++ [cur]) = []
      simp

theorem wrapLines_some_ne_nil (f : FontM) (size : ℕ) (maxW : ℚ) (maxL : ℕ)
    (allow : Bool) (text : Str) (ls : List Str)
    (h : wrapLines f size maxW maxL allow text = some ls) : ls ≠ [] := by
  rw [wrapLines] at h
  split at h
  · simp at h
  · rename_i hws
    exact wrapLoop_some_ne_nil f size maxW maxL allow _ [] []
      (splitWS_mem_ne_nil text) (Or.inr (Or.inr hws)) ls h

theorem orTruthy_ne_nil (o : Option (List Str)) (d : List Str) (hd : d ≠ []) :
    orTruthy o d ≠ [] := by
  unfold orTruthy
  split
  · simp
  · exact hd

/-! ### C5: chosen size lies in the requested range -/

/-- C5: with `min_size ≤ max_size`, each fitter — `fit_text`,
`fit_text_in_box`, `fit_text_above_line` — returns a size in
`[min_size, max_size]`, on every path including the fallbacks. -/
theorem fitters_size_in_range (f : FontM) (maxS minS : ℕ) (maxW : ℚ)
    (maxL : ℕ) (maxH yTop yLine clearance lh : ℚ) (allow : Bool) (text : Str)
    (h : minS ≤ maxS) :
    (minS ≤ (fitText f maxS minS maxW maxL allow text).1 ∧
      (fitText f maxS minS maxW maxL allow text).1 ≤ maxS) ∧
    (minS ≤ (fitTextInBox f maxS minS maxW maxL maxH lh allow text).1 ∧
      (fitTextInBox f maxS minS maxW maxL maxH lh allow text).1 ≤ maxS) ∧
    (minS ≤ (fitTextAboveLine f maxS minS maxW maxL yTop yLine clearance lh allow text).1 ∧
      (fitTextAboveLine f maxS minS maxW maxL yTop yLine clearance lh allow text).1 ≤ maxS) := by
  refine ⟨?_, ?_, ?_⟩
  · unfold fitText
    cases hl : fitLoop f maxS minS maxW maxL allow text with
    | some r => exact sizeList_mem_bounds _ _ _ (fitLoop_spec f maxS minS maxW maxL allow text r hl).1
    | none => exact ⟨le_refl _, h⟩
  · unfold fitTextInBox
    cases hl : fitBoxLoop f maxS minS maxW maxL maxH lh allow text with
    | some r =>
      exact sizeList_mem_bounds _ _ _
        (fitBoxLoop_spec f maxS minS maxW maxL maxH lh allow text r hl).1
    | none => exact ⟨le_refl _, h⟩
  · unfold fitTextAboveLine
    by_cases hws : splitWS text = []
    · rw [if_pos hws]
      exact ⟨le_refl _, h⟩
    · rw [if_neg hws]
      cases hl : aboveLoop f maxS minS maxW maxL yTop yLine clearance lh allow text with
      | some r =>
        exact sizeList_mem_bounds _ _ _
          (aboveLoop_spec f maxS minS maxW maxL yTop yLine clearance lh allow text r hl).1
      | none =>
        dsimp only
        split <;> exact ⟨le_refl _, h⟩

/-- Witness for C5 at concrete inputs. -/
theorem fitters_size_in_range_witness :
    (3 ≤ (fitText fontZero 5 3 10 2 true ('a' :: [])).1 ∧
      (fitText fontZero 5 3 10 2 true ('a' :: [])).1 ≤ 5) ∧
    (3 ≤ (fitTextInBox fontZero 5 3 10 2 100 1 true ('a' :: [])).1 ∧
      (fitTextInBox fontZero 5 3 10 2 100 1 true ('a' :: [])).1 ≤ 5) ∧
    (3 ≤ (fitTextAboveLine fontZero 5 3 10 2 100 0 1 1 true ('a' :: [])).1 ∧
      (fitTextAboveLine fontZero 5 3 10 2 100 0 1 1 true ('a' :: [])).1 ≤ 5) :=
  fitters_size_in_range fontZero 5 3 10 2 100 100 0 1 1 true ('a' :: []) (by norm_num)

/-! ### C6: the fitters always produce a nonempty line list -/

/-- C6: on every input (empty and whitespace-only text included, and with no
constraint on the size range), `fit_text`, `fit_text_in_box` and
`fit_text_above_line` return a nonempty list of lines: the searches only
accept nonempty wraps, and the fallbacks produce the single truncated
ellipsis line, the un-wrapped text, or the single empty line for empty text.
In the embedding the three functions are total, so no call raises an error. -/
theorem fitters_lines_ne_nil (f : FontM) (maxS minS : ℕ) (maxW : ℚ)
    (maxL : ℕ) (maxH yTop yLine clearance lh : ℚ) (allow : Bool) (text : Str) :
    (fitText f maxS minS maxW maxL allow text).2 ≠ [] ∧
    (fitTextInBox f maxS minS maxW maxL maxH lh allow text).2 ≠ [] ∧
    (fitTextAboveLine f maxS minS maxW maxL yTop yLine clearance lh allow text).2.1 ≠ [] := by
  refine ⟨?_, ?_, ?_⟩
  · unfold fitText
    cases hl : fitLoop f maxS minS maxW maxL allow text with
    | some r => exact (fitLoop_spec f maxS minS maxW maxL allow text r hl).2.2
    | none => exact orTruthy_ne_nil _ _ (by simp)
  · unfold fitTextInBox
    cases hl : fitBoxLoop f maxS minS maxW maxL maxH lh allow text with
    | some r => exact (fitBoxLoop_spec f maxS minS maxW maxL maxH lh allow text r hl).2.2.1
    | none => exact orTruthy_ne_nil _ _ (by simp)
  · unfold fitTextAboveLine
    by_cases hws : splitWS text = []
    · rw [if_pos hws]
      simp
    · rw [if_neg hws]
      cases hl : aboveLoop f maxS minS maxW maxL yTop yLine clearance lh allow text with
      | some r =>
        exact (aboveLoop_spec f maxS minS maxW maxL yTop yLine clearance lh allow text r hl).2.2.1
      | none =>
        dsimp only
        split <;> exact orTruthy_ne_nil _ _ (by simp)

/-! ### C2: the height bound of fit_text_in_box -/

/-- C2 counterexample: the min-size fallback of `fit_text_in_box` ignores
`max_height`: with a single size 10, line height 1 and `max_height = 5`, the
text "a" wraps but no size passes the height check, so the fallback returns
size 10 with one line, and `10 * 1 * 1 ≤ 5` fails. -/
theorem fitTextInBox_height_cx :
    fitTextInBox fontZero 10 10 5 1 5 1 true ('a' :: []) = (10, ('a' :: []) :: []) ∧
      ¬ (((fitTextInBox fontZero 10 10 5 1 5 1 true ('a' :: [])).1 : ℚ) * 1 *
          (((fitTextInBox fontZero 10 10 5 1 5 1 true ('a' :: [])).2.length : ℕ) : ℚ) ≤ 5) := by
  have heval : fitTextInBox fontZero 10 10 5 1 5 1 true ('a' :: []) = (10, ('a' :: []) :: []) := by
    simp [fitTextInBox, fitBoxLoop, sizeList, descend, List.findSome?, wrapLines, splitWS,
      wsChar, wrapLoop_cons_eq, wrapLoop_nil_eq, textWidth, fontZero, truncFallback, orTruthy]
    norm_num
  refine ⟨heval, ?_⟩
  rw [heval]
  norm_num

/-- C2 (amended): whenever some size in `[min_size, max_size]` admits a wrap
whose height fits (`size * line_height * line_count ≤ max_height`), the pair
returned by `fit_text_in_box` satisfies the height bound; only the min-size
fallback, reached when no size in range fits the height, may exceed it. -/
theorem fitTextInBox_height_bound (f : FontM) (maxS minS : ℕ) (maxW : ℚ)
    (maxL : ℕ) (maxH lh : ℚ) (allow : Bool) (text : Str)
    (hex : ∃ s ∈ sizeList maxS minS, ∃ ls : List Str,
        wrapLines f s maxW maxL allow text = some ls ∧
        (s : ℚ) * lh * ((ls.length : ℕ) : ℚ) ≤ maxH) :
    ((fitTextInBox f maxS minS maxW maxL maxH lh allow text).1 : ℚ) * lh *
        (((fitTextInBox f maxS minS maxW maxL maxH lh allow text).2.length : ℕ) : ℚ) ≤ maxH := by
  obtain ⟨s, hs, ls, hw, hh⟩ := hex
  have hne : ls ≠ [] := wrapLines_some_ne_nil f s maxW maxL allow text ls hw
  obtain ⟨l, t, rfl⟩ : ∃ l t, ls = l :: t := by
    cases ls with
    | nil => exact absurd rfl hne
    | cons l t => exact ⟨l, t, rfl⟩
  have hPs : ((fun s => match wrapLines f s maxW maxL allow text with
      | some (l :: ls) =>
        if (s : ℚ) * lh * (((l :: ls).length : ℕ) : ℚ) ≤ maxH then some (s, l :: ls)
        else none
      | _ => none) s).isSome := by
    simp only [hw, if_pos hh]
    simp
  have hbox : (fitBoxLoop f maxS minS maxW maxL maxH lh allow text).isSome :=
    findSome_isSome _ _ s hs hPs
  obtain ⟨r, hr⟩ := Option.isSome_iff_exists.mp hbox
  have hspec := fitBoxLoop_spec f maxS minS maxW maxL maxH lh allow text r hr
  unfold fitTextInBox
  rw [hr]
  exact hspec.2.2.2

/-- Witness for the amended C2 at concrete inputs. -/
theorem fitTextInBox_height_bound_witness :
    ((fitTextInBox fontZero 10 10 5 1 100 1 true ('a' :: [])).1 : ℚ) * 1 *
        (((fitTextInBox fontZero 10 10 5 1 100 1 true ('a' :: [])).2.length : ℕ) : ℚ) ≤ 100 :=
  fitTextInBox_height_bound fontZero 10 10 5 1 100 1 true ('a' :: [])
    ⟨10, by simp [sizeList, descend], ('a' :: []) :: [],
      by
        simp [wrapLines, splitWS, wsChar, wrapLoop_cons_eq, wrapLoop_nil_eq, textWidth, fontZero],
      by norm_num⟩

/-! ### C1: geometry of fit_text_above_line -/

/-- C1 counterexample: on empty (or whitespace-only) text,
`fit_text_above_line` returns the baseline `y_line + clearance` itself (not
`y_line + clearance + descent`), so with a positive descent the lowest glyph
edge constraint fails, and the clamp equality does not hold either (the top
glyph edge is `ascent`, not the ceiling). -/
theorem fitTextAboveLine_empty_cx :
    fitTextAboveLine fontCx1 1 1 10 2 3 0 0 1 false [] = (1, ([] : Str) :: [], 0) ∧
      ¬ aboveClaimOK fontCx1 3 0 0 1 (fitTextAboveLine fontCx1 1 1 10 2 3 0 0 1 false []) := by
  have heval : fitTextAboveLine fontCx1 1 1 10 2 3 0 0 1 false [] = (1, ([] : Str) :: [], 0) := by
    simp [fitTextAboveLine, splitWS]
  refine ⟨heval, ?_⟩
  rw [heval]
  unfold aboveClaimOK fontCx1
  norm_num

/-- C1 (amended): for nonempty normalized text (and `min_size ≤ max_size`),
every triple returned by `fit_text_above_line` satisfies the claimed
geometry: on the search path and the un-clamped fallback both the clearance
and the ceiling constraints hold (the clearance one with equality), and when
the clamp fires the shifted baseline puts the top glyph edge exactly at the
ceiling.  The empty-text early return is excluded: it can violate both. -/
theorem fitTextAboveLine_geometry (f : FontM) (maxS minS : ℕ) (maxW : ℚ)
    (maxL : ℕ) (yTop yLine clearance lh : ℚ) (allow : Bool) (text : Str)
    (hms : minS ≤ maxS) (hws : splitWS text ≠ []) :
    aboveClaimOK f yTop yLine clearance lh
      (fitTextAboveLine f maxS minS maxW maxL yTop yLine clearance lh allow text) := by
  unfold fitTextAboveLine
  rw [if_neg hws]
  cases hl : aboveLoop f maxS minS maxW maxL yTop yLine clearance lh allow text with
  | some r =>
    obtain ⟨hmem, hw, hne, hlb, htop⟩ :=
      aboveLoop_spec f maxS minS maxW maxL yTop yLine clearance lh allow text r hl
    unfold topGlyphQ lastBaselineQ at htop
    unfold lastBaselineQ at hlb
    left
    constructor
    · rw [hlb]
      have := abs_nonneg (f.desc * (r.1 : ℚ))
      linarith
    · rw [hlb]
      linarith
  | none =>
    dsimp only
    split
    · rename_i hif
      unfold topGlyphQ lastBaselineQ at hif
      unfold aboveClaimOK lastBaselineQ
      left
      constructor
      · dsimp only
        have := abs_nonneg (f.desc * (minS : ℚ))
        linarith
      · dsimp only
        linarith
    · rename_i hif
      unfold topGlyphQ lastBaselineQ at hif
      unfold aboveClaimOK lastBaselineQ
      right
      dsimp only
      unfold topGlyphQ lastBaselineQ
      ring

/-- Witness for the amended C1 at concrete inputs. -/
theorem fitTextAboveLine_geometry_witness :
    aboveClaimOK fontZero 100 0 1 1
      (fitTextAboveLine fontZero 5 3 10 2 100 0 1 1 false ('a' :: [])) :=
  fitTextAboveLine_geometry fontZero 5 3 10 2 100 0 1 1 false ('a' :: [])
    (by norm_num) (by simp [splitWS, wsChar])

/-! ### C3: wrap_lines respects max_lines and max_width -/

theorem textWidth_nil (f : FontM) (size : ℕ) : textWidth f size [] = 0 := by
  simp [textWidth]

theorem textWidth_append (f : FontM) (size : ℕ) (a b : Str) :
    textWidth f size (a ++ b) = textWidth f size a + textWidth f size b := by
  simp [textWidth, add_mul]

theorem textWidth_nonneg (f : FontM) (size : ℕ) (hcw : ∀ c, 0 ≤ f.cw c)
    (t : Str) : 0 ≤ textWidth f size t := by
  refine mul_nonneg (List.sum_nonneg ?_) (by positivity)
  intro x hx
  obtain ⟨c, _, rfl⟩ := List.mem_map.mp hx
  exact hcw c

theorem breakCore_mem_width (f : FontM) (size : ℕ) (maxW : ℚ) :
    ∀ (cs buf : Str) (parts : List Str),
      (∀ x ∈ parts, textWidth f size x ≤ maxW ∨ x.length = 1) →
      (buf = [] ∨ textWidth f size buf ≤ maxW ∨ buf.length = 1) →
      ∀ x ∈ breakCore f size maxW cs buf parts,
        textWidth f size x ≤ maxW ∨ x.length = 1 := by
  intro cs
  induction cs with
  | nil =>
    intro buf parts hp hb x hx
    by_cases hbe : buf = [] <;> simp [breakCore, hbe] at hx
    · exact hp x hx
    · rcases hx with hx | hx
      · exact hp x hx
      · subst hx
        rcases hb with hb | hb
        · exact absurd hb hbe
        · exact hb
  | cons c cs ih =>
    intro buf parts hp hb x hx
    simp only [breakCore] at hx
    split at hx
    · refine ih _ _ hp (Or.inr (Or.inl (by assumption))) x hx
    · split at hx
      · refine ih _ _ ?_ (Or.inl rfl) x hx
        intro y hy
        rcases List.mem_append.mp hy with hy | hy
        · exact hp y hy
        · simp at hy; simp [hy]
      · refine ih _ _ ?_ (Or.inr (Or.inr (by simp))) x hx
        intro y hy
        rcases List.mem_append.mp hy with hy | hy
        · exact hp y hy
        · simp at hy
          subst hy
          rcases hb with hb | hb
          · simp_all
          · exact hb

theorem breakLongWord_mem_width (f : FontM) (size : ℕ) (maxW : ℚ) (w : Str) :
    ∀ x ∈ breakLongWord f size maxW w, textWidth f size x ≤ maxW ∨ x.length = 1 :=
  breakCore_mem_width f size maxW w [] [] (by simp) (Or.inl rfl)

/-- A word that is a single character wider than `max_width` can never be
placed: with char-breaking enabled the loop keeps splicing the same character
back, pushing empty lines until the line budget runs out, so the wrap fails. -/
theorem wrapLoop_wide_single_none (f : FontM) (size : ℕ) (maxW : ℚ)
    (maxL : ℕ) (allow : Bool) (hcw : ∀ c, 0 ≤ f.cw c) (c : Char)
    (hc : ¬ textWidth f size (c :: []) ≤ maxW) :
    ∀ (n : ℕ) (rest : List Str) (cur : Str) (lines : List Str),
      n = maxL - lines.length →
      wrapLoop f size maxW maxL allow ((c :: []) :: rest) cur lines = none := by
  intro n
  induction n using Nat.strong_induction_on with
  | _ n ih =>
    intro rest cur lines hn
    rw [wrapLoop_cons_eq]
    rw [if_neg hc]
    by_cases hal : allow = false
    · rw [if_pos hal]
    · rw [if_neg hal]
      have hbr : breakLongWord f size maxW (c :: []) = (c :: []) :: [] := by
        simp [breakLongWord, breakCore, hc]
      simp only [hbr]
      have htest : ¬ textWidth f size
          (if cur = [] then c :: [] else cur ++ ' ' :: c :: []) ≤ maxW := by
        by_cases hcur : cur = []
        · simpa [hcur] using hc
        · rw [if_neg hcur]
          intro hle
          apply hc
          have h1 : (cur ++ ' ' :: c :: []) = (cur ++ (' ' :: [])) ++ (c :: []) := by simp
          rw [h1, textWidth_append] at hle
          have h2 := textWidth_nonneg f size hcw (cur ++ (' ' :: []))
          linarith
      rw [if_neg htest]
      by_cases hfull : maxL ≤ (lines ++ [cur]).length
      · rw [if_pos hfull]
      · rw [if_neg hfull]
        have hrec := ih (maxL - (lines ++ [cur]).length)
          (by simp at hfull ⊢; omega) rest [] (lines ++ [cur]) rfl
        simpa using hrec

theorem wrapLoop_some_count (f : FontM) (size : ℕ) (maxW : ℚ) (maxL : ℕ)
    (allow : Bool) (rem : List Str) (cur : Str) (lines : List Str) :
    ∀ ls, wrapLoop f size maxW maxL allow rem cur lines = some ls →
      ls.length ≤ maxL := by
  induction rem, cur, lines using wrapLoop.induct f size maxW maxL allow with
  | case1 cur lines lines0 hle =>
    intro ls hls
    rw [wrapLoop_nil_eq] at hls
    have hle2 : (if cur = [] then lines else lines ++ [cur]).length ≤ maxL := hle
    rw [if_pos hle2, Option.some.injEq] at hls
    subst hls
    exact hle2
  | case2 cur lines lines0 hle =>
    intro ls hls
    rw [wrapLoop_nil_eq] at hls
    have hle2 : ¬ (if cur = [] then lines else lines ++ [cur]).length ≤ maxL := hle
    rw [if_neg hle2] at hls
    simp at hls
  | case3 w rest cur lines hw tst htest ih =>
    intro ls hls
    rw [wrapLoop_cons_eq] at hls
    have ht2 : textWidth f size (if cur = [] then w else cur ++ ' ' :: w) ≤ maxW := htest
    rw [if_pos hw, if_pos ht2] at hls
    exact ih ls hls
  | case4 w rest cur lines hw tst htest lines0 hfull =>
    intro ls hls
    rw [wrapLoop_cons_eq] at hls
    have ht2 : ¬ textWidth f size (if cur = [] then w else cur ++ ' ' :: w) ≤ maxW := htest
    have hf2 : maxL ≤ (lines ++ [cur]).length := hfull
    rw [if_pos hw, if_neg ht2, if_pos hf2] at hls
    simp at hls
  | case5 w rest cur lines hw tst htest lines0 hfull ih =>
    intro ls hls
    rw [wrapLoop_cons_eq] at hls
    have ht2 : ¬ textWidth f size (if cur = [] then w else cur ++ ' ' :: w) ≤ maxW := htest
    have hf2 : ¬ maxL ≤ (lines ++ [cur]).length := hfull
    rw [if_pos hw, if_neg ht2, if_neg hf2] at hls
    exact ih ls hls
  | case6 w rest cur lines hw hallow =>
    intro ls hls
    rw [wrapLoop_cons_eq] at hls
    rw [if_neg hw, if_pos hallow] at hls
    simp at hls
  | case7 w rest cur lines hw hallow hbr =>
    intro ls hls
    rw [wrapLoop_cons_eq] at hls
    rw [if_neg hw, if_neg hallow] at hls
    simp only [hbr] at hls
    exact absurd hls (by simp)
  | case8 w rest cur lines hw hallow p ps hbr tst htest ih =>
    intro ls hls
    rw [wrapLoop_cons_eq] at hls
    rw [if_neg hw, if_neg hallow] at hls
    simp only [hbr] at hls
    have ht2 : textWidth f size (if cur = [] then p else cur ++ ' ' :: p) ≤ maxW := htest
    rw [if_pos ht2] at hls
    exact ih ls hls
  | case9 w rest cur lines hw hallow p ps hbr tst htest lines0 hfull =>
    intro ls hls
    rw [wrapLoop_cons_eq] at hls
    rw [if_neg hw, if_neg hallow] at hls
    simp only [hbr] at hls
    have ht2 : ¬ textWidth f size (if cur = [] then p else cur ++ ' ' :: p) ≤ maxW := htest
    have hf2 : maxL ≤ (lines ++ [cur]).length := hfull
    rw [if_neg ht2, if_pos hf2] at hls
    simp at hls
  | case10 w rest cur lines hw hallow p ps hbr tst htest lines0 hfull ih =>
    intro ls hls
    rw [wrapLoop_cons_eq] at hls
    rw [if_neg hw, if_neg hallow] at hls
    simp only [hbr] at hls
    have ht2 : ¬ textWidth f size (if cur = [] then p else cur ++ ' ' :: p) ≤ maxW := htest
    have hf2 : ¬ maxL ≤ (lines ++ [cur]).length := hfull
    rw [if_neg ht2, if_neg hf2] at hls
    exact ih ls hls

theorem wrapLoop_some_width (f : FontM) (size : ℕ) (maxW : ℚ) (maxL : ℕ)
    (allow : Bool) (hcw : ∀ c, 0 ≤ f.cw c) (rem : List Str) (cur : Str)
    (lines : List Str) :
    (∀ l ∈ lines, textWidth f size l ≤ maxW) →
    (cur = [] ∨ textWidth f size cur ≤ maxW) →
    ∀ ls, wrapLoop f size maxW maxL allow rem cur lines = some ls →
      ∀ l ∈ ls, textWidth f size l ≤ maxW := by
  induction rem, cur, lines using wrapLoop.induct f size maxW maxL allow with
  | case1 cur lines lines0 hle =>
    intro hlines hcur ls hls
    rw [wrapLoop_nil_eq] at hls
    have hle2 : (if cur = [] then lines else lines ++ [cur]).length ≤ maxL := hle
    rw [if_pos hle2, Option.some.injEq] at hls
    subst hls
    by_cases hc : cur = []
    · rw [if_pos hc]; exact hlines
    · rw [if_neg hc]
      intro l hl
      rcases List.mem_append.mp hl with hl | hl
      · exact hlines l hl
      · simp at hl
        subst hl
        rcases hcur with h | h
        · exact absurd h hc
        · exact h
  | case2 cur lines lines0 hle =>
    intro hlines hcur ls hls
    rw [wrapLoop_nil_eq] at hls
    have hle2 : ¬ (if cur = [] then lines else lines ++ [cur]).length ≤ maxL := hle
    rw [if_neg hle2] at hls
    simp at hls
  | case3 w rest cur lines hw tst htest ih =>
    intro hlines hcur ls hls
    rw [wrapLoop_cons_eq] at hls
    have ht2 : textWidth f size (if cur = [] then w else cur ++ ' ' :: w) ≤ maxW := htest
    rw [if_pos hw, if_pos ht2] at hls
    exact ih hlines (Or.inr ht2) ls hls
  | case4 w rest cur lines hw tst htest lines0 hfull =>
    intro hlines hcur ls hls
    rw [wrapLoop_cons_eq] at hls
    have ht2 : ¬ textWidth f size (if cur = [] then w else cur ++ ' ' :: w) ≤ maxW := htest
    have hf2 : maxL ≤ (lines ++ [cur]).length := hfull
    rw [if_pos hw, if_neg ht2, if_pos hf2] at hls
    simp at hls
  | case5 w rest cur lines hw tst htest lines0 hfull ih =>
    intro hlines hcur ls hls
    rw [wrapLoop_cons_eq] at hls
    have ht2 : ¬ textWidth f size (if cur = [] then w else cur ++ ' ' :: w) ≤ maxW := htest
    have hf2 : ¬ maxL ≤ (lines ++ [cur]).length := hfull
    rw [if_pos hw, if_neg ht2, if_neg hf2] at hls
    have hcur2 : textWidth f size cur ≤ maxW := by
      rcases hcur with h | h
      · exact absurd (by simpa [h] using hw) (by simpa [h] using ht2)
      · exact h
    refine ih ?_ (Or.inl rfl) ls hls
    intro l hl
    rcases List.mem_append.mp hl with hl | hl
    · exact hlines l hl
    · simp at hl; subst hl; exact hcur2
  | case6 w rest cur lines hw hallow =>
    intro hlines hcur ls hls
    rw [wrapLoop_cons_eq] at hls
    rw [if_neg hw, if_pos hallow] at hls
    simp at hls
  | case7 w rest cur lines hw hallow hbr =>
    intro hlines hcur ls hls
    rw [wrapLoop_cons_eq] at hls
    rw [if_neg hw, if_neg hallow] at hls
    simp only [hbr] at hls
    exact absurd hls (by simp)
  | case8 w rest cur lines hw hallow p ps hbr tst htest ih =>
    intro hlines hcur ls hls
    rw [wrapLoop_cons_eq] at hls
    rw [if_neg hw, if_neg hallow] at hls
    simp only [hbr] at hls
    have ht2 : textWidth f size (if cur = [] then p else cur ++ ' ' :: p) ≤ maxW := htest
    rw [if_pos ht2] at hls
    exact ih hlines (Or.inr ht2) ls hls
  | case9 w rest cur lines hw hallow p ps hbr tst htest lines0 hfull =>
    intro hlines hcur ls hls
    rw [wrapLoop_cons_eq] at hls
    rw [if_neg hw, if_neg hallow] at hls
    simp only [hbr] at hls
    have ht2 : ¬ textWidth f size (if cur = [] then p else cur ++ ' ' :: p) ≤ maxW := htest
    have hf2 : maxL ≤ (lines ++ [cur]).length := hfull
    rw [if_neg ht2, if_pos hf2] at hls
    simp at hls
  | case10 w rest cur lines hw hallow p ps hbr tst htest lines0 hfull ih =>
    intro hlines hcur ls hls
    rw [wrapLoop_cons_eq] at hls
    rw [if_neg hw, if_neg hallow] at hls
    simp only [hbr] at hls
    have ht2 : ¬ textWidth f size (if cur = [] then p else cur ++ ' ' :: p) ≤ maxW := htest
    have hf2 : ¬ maxL ≤ (lines ++ [cur]).length := hfull
    rw [if_neg ht2, if_neg hf2] at hls
    by_cases hc : cur = []
    · -- the spliced head piece is itself too wide, hence a single character:
      -- the continuation can only fail, contradicting hls
      have hpw : ¬ textWidth f size p ≤ maxW := by simpa [hc] using ht2
      have hp1 : p.length = 1 := by
        rcases breakLongWord_mem_width f size maxW w p (by rw [hbr]; simp) with h | h
        · exact absurd h hpw
        · exact h
      obtain ⟨ch, rfl⟩ := List.length_eq_one.mp hp1
      have := wrapLoop_wide_single_none f size maxW maxL allow hcw ch hpw
        (maxL - (lines ++ [cur]).length) (ps ++ rest) [] (lines ++ [cur]) rfl
      rw [this] at hls
      simp at hls
    · have hcur2 : textWidth f size cur ≤ maxW := by
        rcases hcur with h | h
        · exact absurd h hc
        · exact h
      refine ih ?_ (Or.inl rfl) ls hls
      intro l hl
      rcases List.mem_append.mp hl with hl | hl
      · exact hlines l hl
      · simp at hl; subst hl; exact hcur2

/-- C3: whenever `wrap_lines` succeeds, the line count is at most `max_lines`
and every returned line measures at most `max_width` at the given font and
size — including lines assembled from the character-level pieces of
`break_long_word` (a too-wide single character can only lead to failure, so
no over-wide piece ever survives into a successful result). -/
theorem wrapLines_bounds (f : FontM) (size : ℕ) (maxW : ℚ) (maxL : ℕ)
    (allow : Bool) (text : Str) (hcw : ∀ c, 0 ≤ f.cw c) (ls : List Str)
    (h : wrapLines f size maxW maxL allow text = some ls) :
    ls.length ≤ maxL ∧ ∀ l ∈ ls, textWidth f size l ≤ maxW := by
  rw [wrapLines] at h
  split at h
  · simp at h
  · exact ⟨wrapLoop_some_count f size maxW maxL allow _ [] [] ls h,
      wrapLoop_some_width f size maxW maxL allow hcw _ [] [] (by simp)
        (Or.inl rfl) ls h⟩

/-- Witness for C3 at a concrete successful wrap. -/
theorem wrapLines_bounds_witness :
    ((('a' :: 'b' :: []) :: []).length ≤ 3 ∧
      ∀ l ∈ (('a' :: 'b' :: []) :: []), textWidth fontOne 1 l ≤ 5) :=
  wrapLines_bounds fontOne 1 5 3 true ('a' :: 'b' :: []) (fun _ => by simp [fontOne]) _
    (by
      simp [wrapLines, splitWS, wsChar, wrapLoop_cons_eq, wrapLoop_nil_eq, textWidth, fontOne]
      norm_num)

/-! ### C4: monotonicity of the fitted size -/

theorem glueList_nil (cur : Str) : glueList cur [] = cur := rfl

theorem glueList_cons (cur x : Str) (xs : List Str) :
    glueList cur (x :: xs) = glueList (glue cur x) xs := rfl

theorem takeLine_nil_eq (f : FontM) (size : ℕ) (maxW : ℚ) (cur : Str) :
    takeLine f size maxW cur [] = (cur, []) := rfl

theorem takeLine_cons_eq (f : FontM) (size : ℕ) (maxW : ℚ) (cur w : Str)
    (rest : List Str) :
    takeLine f size maxW cur (w :: rest) =
      if textWidth f size (glue cur w) ≤ maxW then
        takeLine f size maxW (glue cur w) rest
      else (cur, w :: rest) := rfl

theorem textWidth_w_le_glue (f : FontM) (size : ℕ) (hcw : ∀ c, 0 ≤ f.cw c)
    (cur w : Str) : textWidth f size w ≤ textWidth f size (glue cur w) := by
  unfold glue
  split
  · exact le_refl _
  · have h1 : cur ++ ' ' :: w = (cur ++ (' ' :: [])) ++ w := by simp
    rw [h1, textWidth_append]
    have := textWidth_nonneg f size hcw (cur ++ (' ' :: []))
    linarith

theorem textWidth_cur_le_glue (f : FontM) (size : ℕ) (hcw : ∀ c, 0 ≤ f.cw c)
    (cur w : Str) : textWidth f size cur ≤ textWidth f size (glue cur w) := by
  unfold glue
  split
  · rename_i h
    subst h
    rw [textWidth_nil]
    exact textWidth_nonneg f size hcw w
  · have h1 : cur ++ ' ' :: w = cur ++ (' ' :: w) := rfl
    rw [h1, textWidth_append]
    have := textWidth_nonneg f size hcw (' ' :: w)
    linarith

theorem glueList_width_ge (f : FontM) (size : ℕ) (hcw : ∀ c, 0 ≤ f.cw c) :
    ∀ (xs : List Str) (cur : Str),
      textWidth f size cur ≤ textWidth f size (glueList cur xs) := by
  intro xs
  induction xs with
  | nil => intro cur; exact le_refl _
  | cons x xs ih =>
    intro cur
    rw [glueList_cons]
    exact le_trans (textWidth_cur_le_glue f size hcw cur x) (ih (glue cur x))

theorem takeLine_suffix (f : FontM) (size : ℕ) (maxW : ℚ) :
    ∀ (rem : List Str) (cur : Str), (takeLine f size maxW cur rem).2 <:+ rem := by
  intro rem
  induction rem with
  | nil => intro cur; simp [takeLine_nil_eq]
  | cons w rest ih =>
    intro cur
    rw [takeLine_cons_eq]
    split
    · exact (ih (glue cur w)).trans (List.suffix_cons w rest)
    · exact List.suffix_refl _

theorem takeLine_decomp (f : FontM) (size : ℕ) (maxW : ℚ) (hcw : ∀ c, 0 ≤ f.cw c) :
    ∀ (rem : List Str) (cur : Str), ∃ con,
      rem = con ++ (takeLine f size maxW cur rem).2 ∧
      (takeLine f size maxW cur rem).1 = glueList cur con ∧
      ∀ x ∈ con, textWidth f size x ≤ maxW := by
  intro rem
  induction rem with
  | nil =>
    intro cur
    exact ⟨[], by simp [takeLine_nil_eq], by simp [takeLine_nil_eq, glueList_nil], by simp⟩
  | cons w rest ih =>
    intro cur
    rw [takeLine_cons_eq]
    split
    · rename_i hglue
      obtain ⟨con, hcon, hl, hwc⟩ := ih (glue cur w)
      refine ⟨w :: con, ?_, ?_, ?_⟩
      · simpa using hcon
      · rw [glueList_cons]; exact hl
      · intro x hx
        rcases List.mem_cons.mp hx with rfl | hx
        · exact le_trans (textWidth_w_le_glue f size hcw cur x) hglue
        · exact hwc x hx
    · exact ⟨[], by simp, by simp [glueList_nil], by simp⟩

theorem takeLine_fst_width (f : FontM) (size : ℕ) (maxW : ℚ) :
    ∀ (rem : List Str) (cur : Str),
      (takeLine f size maxW cur rem).1 = cur ∨
        textWidth f size (takeLine f size maxW cur rem).1 ≤ maxW := by
  intro rem
  induction rem with
  | nil => intro cur; left; rw [takeLine_nil_eq]
  | cons w rest ih =>
    intro cur
    rw [takeLine_cons_eq]
    split
    · rename_i hglue
      rcases ih (glue cur w) with h | h
      · right; rw [h]; exact hglue
      · right; exact h
    · left; rfl

theorem takeLine_absorb (f : FontM) (size : ℕ) (maxW : ℚ) (hcw : ∀ c, 0 ≤ f.cw c) :
    ∀ (xs : List Str) (cur : Str) (ys : List Str),
      textWidth f size (glueList cur xs) ≤ maxW →
      takeLine f size maxW cur (xs ++ ys) = takeLine f size maxW (glueList cur xs) ys := by
  intro xs
  induction xs with
  | nil => intro cur ys _; rw [glueList_nil]; rfl
  | cons x xs ih =>
    intro cur ys hle
    rw [glueList_cons] at hle
    have hstep : textWidth f size (glue cur x) ≤ maxW :=
      le_trans (glueList_width_ge f size hcw xs (glue cur x)) hle
    have h1 : (x :: xs) ++ ys = x :: (xs ++ ys) := rfl
    rw [h1, takeLine_cons_eq, if_pos hstep, glueList_cons]
    exact ih (glue cur x) ys hle

theorem joinSp_single (x : Str) : joinSp (x :: []) = x := by
  simp [joinSp, List.intercalate]

theorem joinSp_cons_cons (x y : Str) (ys : List Str) :
    joinSp (x :: y :: ys) = x ++ ' ' :: joinSp (y :: ys) := by
  simp [joinSp, List.intercalate, List.intersperse]

theorem glueList_joinSp :
    ∀ (ws : List Str) (cur : Str), cur ≠ [] → (∀ x ∈ ws, x ≠ []) →
      glueList cur ws = joinSp (cur :: ws) := by
  intro ws
  induction ws with
  | nil => intro cur _ _; rw [glueList_nil, joinSp_single]
  | cons x xs ih =>
    intro cur hcur hne
    rw [glueList_cons, joinSp_cons_cons]
    have hgx : glue cur x = cur ++ ' ' :: x := by unfold glue; rw [if_neg hcur]
    rw [ih (glue cur x) (by rw [hgx]; simp [hcur]) (fun y hy => hne y (by simp [hy]))]
    rw [hgx]
    cases xs with
    | nil => rw [joinSp_single, joinSp_single]
    | cons z zs => rw [joinSp_cons_cons, joinSp_cons_cons]; simp

theorem joinSp_suffix_sublist :
    ∀ (pre ws : List Str), List.Sublist (joinSp ws) (joinSp (pre ++ ws)) := by
  intro pre
  induction pre with
  | nil => intro ws; simp
  | cons p pre ih =>
    intro ws
    have h1 : (p :: pre) ++ ws = p :: (pre ++ ws) := rfl
    rw [h1]
    cases hpw : pre ++ ws with
    | nil =>
      have : ws = [] := by
        cases pre <;> simp_all
      simp [this, joinSp, List.intercalate]
    | cons z zs =>
      rw [joinSp_cons_cons]
      have h2 := ih ws
      rw [hpw] at h2
      exact h2.trans ((List.suffix_cons ' ' _).trans (List.suffix_append _ _)).sublist

theorem textWidth_sublist_le (f : FontM) (size : ℕ) (hcw : ∀ c, 0 ≤ f.cw c)
    (t1 t2 : Str) (h : List.Sublist t1 t2) :
    textWidth f size t1 ≤ textWidth f size t2 := by
  unfold textWidth
  refine mul_le_mul_of_nonneg_right ?_ (by positivity)
  refine List.Sublist.sum_le_sum (h.map f.cw) ?_
  intro x hx
  obtain ⟨c, _, rfl⟩ := List.mem_map.mp hx
  exact hcw c

theorem suffix_split {α : Type} (a b c : List α) (h1 : a <:+ b ++ c)
    (h2 : c <:+ a) : ∃ m, a = m ++ c ∧ m <:+ b := by
  obtain ⟨m, hm⟩ := h2
  obtain ⟨t, ht⟩ := h1
  refine ⟨m, hm.symm, t, ?_⟩
  rw [← hm, ← List.append_assoc] at ht
  exact List.append_cancel_right ht

/-- Dominance of a wider line: starting from a word position at least as far
along and with the larger width bound, the greedy line consumption stops at a
suffix of where the tighter run stops. -/
theorem takeLine_dominates (f : FontM) (size : ℕ) (W' W : ℚ)
    (hcw : ∀ c, 0 ≤ f.cw c) (hWW : W' ≤ W)
    (u' : Str) (us' : List Str) (l' : Str) (r' : List Str)
    (htl' : takeLine f size W' u' us' = (l', r'))
    (hu' : textWidth f size u' ≤ W')
    (hne : ∀ x ∈ u' :: us', x ≠ [])
    (u : Str) (us : List Str) (hsuf : (u :: us) <:+ (u' :: us'))
    (l : Str) (r : List Str) (htl : takeLine f size W u us = (l, r)) :
    r <:+ r' := by
  obtain ⟨con, hcon, hli, hwcon⟩ := takeLine_decomp f size W' hcw us' u'
  rw [htl'] at hcon hli
  have hfull : (u' :: us') = (u' :: con) ++ r' := by rw [hcon]; rfl
  have hr'suf : r' <:+ (u' :: us') := by
    rw [hfull]; exact List.suffix_append _ _
  have hrus : r <:+ us := by
    have h := takeLine_suffix f size W us u
    rw [htl] at h
    exact h
  rcases List.suffix_or_suffix_of_suffix hsuf hr'suf with hcase | hcase
  · exact hrus.trans ((List.suffix_cons u us).trans hcase)
  · obtain ⟨mid2, hmid, hmidsuf⟩ := suffix_split (u :: us) (u' :: con) r'
      (by rw [← hfull]; exact hsuf) hcase
    cases mid2 with
    | nil =>
      simp at hmid
      exact hrus.trans (by rw [← hmid]; exact List.suffix_cons u us)
    | cons m0 mt =>
      have hm0 : m0 = u ∧ us = mt ++ r' := by
        have h := hmid
        simp only [List.cons_append, List.cons.injEq] at h
        exact ⟨h.1.symm, h.2⟩
      obtain ⟨rfl, husr⟩ := hm0
      have hwl' : textWidth f size l' ≤ W' := by
        rcases takeLine_fst_width f size W' us' u' with h | h
        · rw [htl'] at h
          simp only at h
          rw [h]
          exact hu'
        · rw [htl'] at h
          exact h
      have hjoincon : glueList u' con = joinSp (u' :: con) :=
        glueList_joinSp con u' (hne u' (by simp))
          (fun x hx => hne x (by rw [hcon]; simp [hx]))
      have humem : m0 ∈ u' :: us' := hsuf.sublist.subset (by simp)
      have hmtmem : ∀ x ∈ mt, x ∈ u' :: us' := by
        intro x hx
        refine hsuf.sublist.subset ?_
        simp only [List.mem_cons]
        right
        rw [husr]
        exact List.mem_append.mpr (Or.inl hx)
      have hjoinmid : glueList m0 mt = joinSp (m0 :: mt) :=
        glueList_joinSp mt m0 (hne m0 humem) (fun x hx => hne x (hmtmem x hx))
      have hsubl : List.Sublist (joinSp (m0 :: mt)) (joinSp (u' :: con)) := by
        obtain ⟨pre, hpre⟩ := hmidsuf
        rw [← hpre]
        exact joinSp_suffix_sublist pre (m0 :: mt)
      have hwmid : textWidth f size (glueList m0 mt) ≤ W := by
        rw [hjoinmid]
        have h1 := textWidth_sublist_le f size hcw _ _ hsubl
        rw [← hjoincon, ← hli] at h1
        linarith
      have habs : takeLine f size W m0 us = takeLine f size W (glueList m0 mt) r' := by
        rw [husr]
        exact takeLine_absorb f size W hcw mt m0 r' hwmid
      rw [habs] at htl
      have h := takeLine_suffix f size W r' (glueList m0 mt)
      rw [htl] at h
      exact h

theorem countFrom_nil_eq (f : FontM) (size : ℕ) (maxW : ℚ) (cur : Str) :
    countFrom f size maxW cur [] = some (if cur = [] then 0 else 1) := by
  rw [countFrom]

theorem countFrom_cons_eq (f : FontM) (size : ℕ) (maxW : ℚ) (cur w : Str)
    (rest : List Str) :
    countFrom f size maxW cur (w :: rest) =
      if textWidth f size w ≤ maxW then
        match takeLine f size maxW cur (w :: rest) with
        | (_, []) => some 1
        | (_, r0 :: rs) => (countFrom f size maxW [] (r0 :: rs)).map (· + 1)
      else none := by
  rw [countFrom]
  split
  · cases htl : takeLine f size maxW cur (w :: rest) with
    | mk l rr => cases rr <;> rfl
  · rfl

theorem countFrom_none_of_wide (f : FontM) (size : ℕ) (maxW : ℚ) (cur w : Str)
    (rest : List Str) (hw : ¬ textWidth f size w ≤ maxW) :
    countFrom f size maxW cur (w :: rest) = none := by
  rw [countFrom_cons_eq, if_neg hw]

theorem countFrom_pos (f : FontM) (size : ℕ) (maxW : ℚ) (cur w : Str)
    (rest : List Str) (k : ℕ)
    (h : countFrom f size maxW cur (w :: rest) = some k) : 1 ≤ k := by
  rw [countFrom_cons_eq] at h
  split at h
  · split at h
    · simp at h; omega
    · simp at h
      obtain ⟨j, _, hj⟩ := h
      omega
  · simp at h

theorem countFrom_consume (f : FontM) (size : ℕ) (maxW : ℚ)
    (hcw : ∀ c, 0 ≤ f.cw c) (cur w : Str) (rest : List Str)
    (hw : textWidth f size w ≤ maxW)
    (hglue : textWidth f size (glue cur w) ≤ maxW)
    (hgne : glue cur w ≠ []) :
    countFrom f size maxW cur (w :: rest) =
      countFrom f size maxW (glue cur w) rest := by
  have hstep : takeLine f size maxW cur (w :: rest) =
      takeLine f size maxW (glue cur w) rest := by
    rw [takeLine_cons_eq, if_pos hglue]
  rw [countFrom_cons_eq, if_pos hw]
  cases rest with
  | nil =>
    rw [hstep, takeLine_nil_eq]
    rw [countFrom_nil_eq, if_neg hgne]
  | cons u us =>
    rw [countFrom_cons_eq]
    by_cases hu : textWidth f size u ≤ maxW
    · rw [if_pos hu, hstep]
    · rw [if_neg hu]
      have hstop : takeLine f size maxW (glue cur w) (u :: us) =
          (glue cur w, u :: us) := by
        rw [takeLine_cons_eq, if_neg ?_]
        intro hle
        apply hu
        exact le_trans (textWidth_w_le_glue f size hcw (glue cur w) u) hle
      rw [hstep, hstop]
      dsimp only
      rw [countFrom_none_of_wide f size maxW [] u us hu]
      rfl

theorem countFrom_close (f : FontM) (size : ℕ) (maxW : ℚ) (cur w : Str)
    (rest : List Str) (hw : textWidth f size w ≤ maxW) (hc : cur ≠ [])
    (hglue : ¬ textWidth f size (glue cur w) ≤ maxW) :
    countFrom f size maxW cur (w :: rest) =
      (countFrom f size maxW [] (w :: rest)).map (· + 1) := by
  rw [countFrom_cons_eq, if_pos hw]
  have hstop : takeLine f size maxW cur (w :: rest) = (cur, w :: rest) := by
    rw [takeLine_cons_eq, if_neg hglue]
  rw [hstop]

theorem countFrom_all_fit (f : FontM) (size : ℕ) (maxW : ℚ)
    (hcw : ∀ c, 0 ≤ f.cw c) :
    ∀ (cur : Str) (S : List Str) (k : ℕ),
      countFrom f size maxW cur S = some k →
      ∀ x ∈ S, textWidth f size x ≤ maxW := by
  intro cur S
  induction cur, S using countFrom.induct f size maxW with
  | case1 cur =>
    intro k _ x hx
    simp at hx
  | case2 cur w rest hw l htl =>
    intro k hk x hx
    obtain ⟨con, hcon, _, hwcon⟩ := takeLine_decomp f size maxW hcw (w :: rest) cur
    rw [htl] at hcon
    simp only [List.append_nil] at hcon
    rw [hcon] at hx
    exact hwcon x hx
  | case3 cur w rest hw l r0 rs htl ih =>
    intro k hk x hx
    obtain ⟨con, hcon, _, hwcon⟩ := takeLine_decomp f size maxW hcw (w :: rest) cur
    rw [htl] at hcon
    rw [hcon] at hx
    rcases List.mem_append.mp hx with hx | hx
    · exact hwcon x hx
    · rw [countFrom_cons_eq, if_pos hw, htl] at hk
      simp only at hk
      cases hcf : countFrom f size maxW [] (r0 :: rs) with
      | none => rw [hcf] at hk; simp at hk
      | some j => exact ih j hcf x hx
  | case4 cur w rest hw =>
    intro k hk x hx
    rw [countFrom_none_of_wide f size maxW cur w rest hw] at hk
    simp at hk

theorem glue_ne_nil (cur w : Str) (hw : w ≠ []) : glue cur w ≠ [] := by
  unfold glue
  split
  · exact hw
  · simp

theorem wrapLoopF_count (f : FontM) (size : ℕ) (maxW : ℚ) (maxL : ℕ)
    (hcw : ∀ c, 0 ≤ f.cw c) (rem : List Str) (cur : Str) (lines : List Str) :
    (∀ x ∈ rem, x ≠ []) →
      ∀ ls, wrapLoop f size maxW maxL false rem cur lines = some ls →
        ∃ k, countFrom f size maxW cur rem = some k ∧ lines.length + k ≤ maxL := by
  induction rem, cur, lines using wrapLoop.induct f size maxW maxL false with
  | case1 cur lines lines0 hle =>
    intro hne ls hls
    have hle2 : (if cur = [] then lines else lines ++ [cur]).length ≤ maxL := hle
    refine ⟨if cur = [] then 0 else 1, countFrom_nil_eq f size maxW cur, ?_⟩
    by_cases hc : cur = [] <;> simp [hc] at hle2 ⊢ <;> omega
  | case2 cur lines lines0 hle =>
    intro hne ls hls
    rw [wrapLoop_nil_eq] at hls
    have hle2 : ¬ (if cur = [] then lines else lines ++ [cur]).length ≤ maxL := hle
    rw [if_neg hle2] at hls
    simp at hls
  | case3 w rest cur lines hw tst htest ih =>
    intro hne ls hls
    rw [wrapLoop_cons_eq] at hls
    have ht2 : textWidth f size (if cur = [] then w else cur ++ ' ' :: w) ≤ maxW := htest
    rw [if_pos hw, if_pos ht2] at hls
    obtain ⟨k, hk, hb⟩ := ih (fun x hx => hne x (by simp [hx])) ls hls
    have hk2 : countFrom f size maxW (glue cur w) rest = some k := hk
    refine ⟨k, ?_, hb⟩
    rw [countFrom_consume f size maxW hcw cur w rest hw ht2
      (glue_ne_nil cur w (hne w (by simp)))]
    exact hk2
  | case4 w rest cur lines hw tst htest lines0 hfull =>
    intro hne ls hls
    rw [wrapLoop_cons_eq] at hls
    have ht2 : ¬ textWidth f size (if cur = [] then w else cur ++ ' ' :: w) ≤ maxW := htest
    have hf2 : maxL ≤ (lines ++ [cur]).length := hfull
    rw [if_pos hw, if_neg ht2, if_pos hf2] at hls
    simp at hls
  | case5 w rest cur lines hw tst htest lines0 hfull ih =>
    intro hne ls hls
    rw [wrapLoop_cons_eq] at hls
    have ht2 : ¬ textWidth f size (if cur = [] then w else cur ++ ' ' :: w) ≤ maxW := htest
    have hf2 : ¬ maxL ≤ (lines ++ [cur]).length := hfull
    rw [if_pos hw, if_neg ht2, if_neg hf2] at hls
    have hc : cur ≠ [] := by
      intro h
      exact ht2 (by simpa [h] using hw)
    obtain ⟨k, hk, hb⟩ := ih hne ls hls
    refine ⟨k + 1, ?_, ?_⟩
    · rw [countFrom_close f size maxW cur w rest hw hc ht2, hk]
      rfl
    · have hb2 : (lines ++ [cur]).length + k ≤ maxL := hb
      simp only [List.length_append, List.length_cons, List.length_nil] at hb2
      omega
  | case6 w rest cur lines hw hallow =>
    intro hne ls hls
    rw [wrapLoop_cons_eq, if_neg hw, if_pos hallow] at hls
    simp at hls
  | case7 w rest cur lines hw hallow hbr =>
    exact absurd rfl hallow
  | case8 w rest cur lines hw hallow p ps hbr tst htest ih =>
    exact absurd rfl hallow
  | case9 w rest cur lines hw hallow p ps hbr tst htest lines0 hfull =>
    exact absurd rfl hallow
  | case10 w rest cur lines hw hallow p ps hbr tst htest lines0 hfull ih =>
    exact absurd rfl hallow

theorem wrapLoopF_complete (f : FontM) (size : ℕ) (maxW : ℚ) (maxL : ℕ)
    (hcw : ∀ c, 0 ≤ f.cw c) (rem : List Str) (cur : Str) (lines : List Str) :
    (∀ x ∈ rem, x ≠ []) →
      ∀ k, countFrom f size maxW cur rem = some k → lines.length + k ≤ maxL →
        (wrapLoop f size maxW maxL false rem cur lines).isSome := by
  induction rem, cur, lines using wrapLoop.induct f size maxW maxL false with
  | case1 cur lines lines0 hle =>
    intro hne k hk hb
    have hle2 : (if cur = [] then lines else lines ++ [cur]).length ≤ maxL := hle
    rw [wrapLoop_nil_eq, if_pos hle2]
    simp
  | case2 cur lines lines0 hle =>
    intro hne k hk hb
    have hle2 : ¬ (if cur = [] then lines else lines ++ [cur]).length ≤ maxL := hle
    rw [countFrom_nil_eq] at hk
    simp only [Option.some.injEq] at hk
    exfalso
    apply hle2
    by_cases hc : cur = [] <;> simp [hc] at hk ⊢ <;> omega
  | case3 w rest cur lines hw tst htest ih =>
    intro hne k hk hb
    have ht2 : textWidth f size (if cur = [] then w else cur ++ ' ' :: w) ≤ maxW := htest
    rw [wrapLoop_cons_eq, if_pos hw, if_pos ht2]
    rw [countFrom_consume f size maxW hcw cur w rest hw ht2
      (glue_ne_nil cur w (hne w (by simp)))] at hk
    exact ih (fun x hx => hne x (by simp [hx])) k hk hb
  | case4 w rest cur lines hw tst htest lines0 hfull =>
    intro hne k hk hb
    have ht2 : ¬ textWidth f size (if cur = [] then w else cur ++ ' ' :: w) ≤ maxW := htest
    have hf2 : maxL ≤ (lines ++ [cur]).length := hfull
    have hc : cur ≠ [] := by
      intro h
      exact ht2 (by simpa [h] using hw)
    rw [countFrom_close f size maxW cur w rest hw hc ht2] at hk
    cases hj : countFrom f size maxW [] (w :: rest) with
    | none => rw [hj] at hk; simp at hk
    | some j =>
      rw [hj] at hk
      simp only [Option.map_some', Option.some.injEq] at hk
      have hpos := countFrom_pos f size maxW [] w rest j hj
      exfalso
      simp only [List.length_append, List.length_cons, List.length_nil] at hf2
      omega
  | case5 w rest cur lines hw tst htest lines0 hfull ih =>
    intro hne k hk hb
    have ht2 : ¬ textWidth f size (if cur = [] then w else cur ++ ' ' :: w) ≤ maxW := htest
    have hf2 : ¬ maxL ≤ (lines ++ [cur]).length := hfull
    have hc : cur ≠ [] := by
      intro h
      exact ht2 (by simpa [h] using hw)
    rw [wrapLoop_cons_eq, if_pos hw, if_neg ht2, if_neg hf2]
    rw [countFrom_close f size maxW cur w rest hw hc ht2] at hk
    cases hj : countFrom f size maxW [] (w :: rest) with
    | none => rw [hj] at hk; simp at hk
    | some j =>
      rw [hj] at hk
      simp only [Option.map_some', Option.some.injEq] at hk
      refine ih hne j hj ?_
      show (lines ++ [cur]).length + j ≤ maxL
      simp only [List.length_append, List.length_cons, List.length_nil]
      omega
  | case6 w rest cur lines hw hallow =>
    intro hne k hk hb
    rw [countFrom_none_of_wide f size maxW cur w rest hw] at hk
    simp at hk
  | case7 w rest cur lines hw hallow hbr =>
    exact absurd rfl hallow
  | case8 w rest cur lines hw hallow p ps hbr tst htest ih =>
    exact absurd rfl hallow
  | case9 w rest cur lines hw hallow p ps hbr tst htest lines0 hfull =>
    exact absurd rfl hallow
  | case10 w rest cur lines hw hallow p ps hbr tst htest lines0 hfull ih =>
    exact absurd rfl hallow

theorem takeLine_start (f : FontM) (size : ℕ) (maxW : ℚ) (u : Str)
    (us : List Str) (hu : textWidth f size u ≤ maxW) :
    takeLine f size maxW [] (u :: us) = takeLine f size maxW u us := by
  rw [takeLine_cons_eq]
  have hg : glue [] u = u := rfl
  rw [hg, if_pos hu]

theorem countFrom_mono (f : FontM) (size : ℕ) (W' W : ℚ)
    (hcw : ∀ c, 0 ≤ f.cw c) (hWW : W' ≤ W) :
    ∀ (n : ℕ) (Sp : List Str), Sp.length ≤ n → (∀ x ∈ Sp, x ≠ []) →
      ∀ k', countFrom f size W' [] Sp = some k' →
      ∀ S, S <:+ Sp →
      ∃ k, k ≤ k' ∧ countFrom f size W [] S = some k := by
  intro n
  induction n with
  | zero =>
    intro Sp hlen hne k' hk' S hS
    have hSp : Sp = [] := by
      cases Sp
      · rfl
      · simp at hlen
    subst hSp
    have hS2 : S = [] := List.suffix_nil.mp hS
    subst hS2
    rw [countFrom_nil_eq] at hk' ⊢
    simp at hk'
    exact ⟨0, by omega, by simp⟩
  | succ n ih =>
    intro Sp hlen hne k' hk' S hS
    cases Sp with
    | nil =>
      have hS2 : S = [] := List.suffix_nil.mp hS
      subst hS2
      rw [countFrom_nil_eq] at hk' ⊢
      simp at hk'
      exact ⟨0, by omega, by simp⟩
    | cons u' us' =>
      have horig := hk'
      have hwu' : textWidth f size u' ≤ W' := by
        by_contra h
        rw [countFrom_none_of_wide f size W' [] u' us' h] at hk'
        simp at hk'
      have hallfit := countFrom_all_fit f size W' hcw [] (u' :: us') k' horig
      rw [countFrom_cons_eq, if_pos hwu', takeLine_start f size W' u' us' hwu'] at hk'
      cases S with
      | nil =>
        rw [countFrom_nil_eq]
        exact ⟨0, by omega, by simp⟩
      | cons u us =>
        have humem : u ∈ u' :: us' := hS.sublist.subset (by simp)
        have huS : textWidth f size u ≤ W := le_trans (hallfit u humem) hWW
        rw [countFrom_cons_eq, if_pos huS, takeLine_start f size W u us huS]
        cases htl' : takeLine f size W' u' us' with
        | mk l' r' =>
          rw [htl'] at hk'
          cases htl : takeLine f size W u us with
          | mk l r =>
            have hdom : r <:+ r' :=
              takeLine_dominates f size W' W hcw hWW u' us' l' r' htl' hwu'
                hne u us hS l r htl
            cases r' with
            | nil =>
              dsimp only at hk'
              have hr : r = [] := List.suffix_nil.mp hdom
              subst hr
              dsimp only
              refine ⟨1, ?_, rfl⟩
              simp at hk'
              omega
            | cons v vs =>
              dsimp only at hk'
              cases hj : countFrom f size W' [] (v :: vs) with
              | none => rw [hj] at hk'; simp at hk'
              | some j =>
                rw [hj] at hk'
                simp only [Option.map_some', Option.some.injEq] at hk'
                cases r with
                | nil =>
                  dsimp only
                  refine ⟨1, ?_, rfl⟩
                  have := countFrom_pos f size W' [] v vs j hj
                  omega
                | cons q qs =>
                  dsimp only
                  have hsub' : (v :: vs) <:+ us' := by
                    have h := takeLine_suffix f size W' us' u'
                    rw [htl'] at h
                    exact h
                  have hlen2 : (v :: vs).length ≤ n := by
                    have := hsub'.length_le
                    simp at hlen
                    omega
                  have hne2 : ∀ x ∈ v :: vs, x ≠ [] := fun x hx =>
                    hne x (by simp [hsub'.sublist.subset hx])
                  obtain ⟨m, hm, hcm⟩ := ih (v :: vs) hlen2 hne2 j hj (q :: qs) hdom
                  rw [hcm]
                  exact ⟨m + 1, by omega, rfl⟩

/-- Monotonicity of wrap success (no char-breaking): a wrap that succeeds
under a tighter width and line budget also succeeds under looser ones. -/
theorem wrapLines_mono (f : FontM) (size : ℕ) (W' W : ℚ) (L' L : ℕ)
    (hcw : ∀ c, 0 ≤ f.cw c) (hWW : W' ≤ W) (hLL : L' ≤ L) (text : Str)
    (ls' : List Str) (h : wrapLines f size W' L' false text = some ls') :
    (wrapLines f size W L false text).isSome := by
  rw [wrapLines] at h ⊢
  split at h
  · simp at h
  · rename_i hws
    rw [if_neg hws]
    obtain ⟨k', hk', hb'⟩ := wrapLoopF_count f size W' L' hcw (splitWS text) [] []
      (splitWS_mem_ne_nil text) ls' h
    obtain ⟨k, hk, hcm⟩ := countFrom_mono f size W' W hcw hWW (splitWS text).length
      (splitWS text) (le_refl _) (splitWS_mem_ne_nil text) k' hk'
      (splitWS text) (List.suffix_refl _)
    refine wrapLoopF_complete f size W L hcw (splitWS text) [] []
      (splitWS_mem_ne_nil text) k hcm ?_
    simp only [List.length_nil] at hb' ⊢
    omega

/-- C4 (amended): with char-breaking disallowed, tightening the width or the
line budget never increases the size chosen by `fit_text`. -/
theorem fitText_mono (f : FontM) (maxS minS : ℕ) (W' W : ℚ) (L' L : ℕ)
    (text : Str) (hcw : ∀ c, 0 ≤ f.cw c) (hWW : W' ≤ W) (hLL : L' ≤ L) :
    (fitText f maxS minS W' L' false text).1 ≤
      (fitText f maxS minS W L false text).1 := by
  cases ht : fitLoop f maxS minS W' L' false text with
  | none =>
    have h1 : (fitText f maxS minS W' L' false text).1 = minS := by
      unfold fitText
      rw [ht]
      rfl
    rw [h1]
    cases hl : fitLoop f maxS minS W L false text with
    | none =>
      unfold fitText
      rw [hl]
      exact le_refl minS
    | some r =>
      unfold fitText
      rw [hl]
      exact (sizeList_mem_bounds maxS minS r.1 (fitLoop_spec f maxS minS W L false text r hl).1).1
  | some rt =>
    have hspec := fitLoop_spec f maxS minS W' L' false text rt ht
    have hls : (wrapLines f rt.1 W L false text).isSome :=
      wrapLines_mono f rt.1 W' W L' L hcw hWW hLL text rt.2 hspec.2.1
    obtain ⟨ls, hls2⟩ := Option.isSome_iff_exists.mp hls
    have hlsne : ls ≠ [] := wrapLines_some_ne_nil f rt.1 W L false text ls hls2
    obtain ⟨l0, lt, rfl⟩ : ∃ a b, ls = a :: b := by
      cases ls with
      | nil => exact absurd rfl hlsne
      | cons a b => exact ⟨a, b, rfl⟩
    have hP : ((fun s => match wrapLines f s W L false text with
        | some (l :: ls) => some (s, l :: ls)
        | _ => none) rt.1).isSome := by
      simp only [hls2]
      simp
    have hshape : ∀ (s : ℕ) (b : ℕ × List Str),
        (fun s => match wrapLines f s W L false text with
          | some (l :: ls) => some (s, l :: ls)
          | _ => none) s = some b → b.1 = s := by
      intro s b hb
      simp only at hb
      cases hw2 : wrapLines f s W L false text with
      | none => rw [hw2] at hb; simp at hb
      | some xs =>
        cases xs with
        | nil => rw [hw2] at hb; simp at hb
        | cons x0 xs =>
          rw [hw2] at hb
          simp only [Option.some.injEq] at hb
          rw [← hb]
    obtain ⟨b, hb, hge⟩ := descend_findSome_ge (fun (b : ℕ × List Str) => b.1) _ hshape
      (maxS + 1 - minS) maxS rt.1 hspec.1 hP
    have hloose : fitLoop f maxS minS W L false text = some b := hb
    unfold fitText
    rw [ht, hloose]
    exact hge

/-- C4 counterexample: with char-breaking allowed, shrinking `max_width` can
increase the chosen size.  On the text "d acd" with sizes 2..3 and two lines,
`fit_text` fits size 3 into width 15 (the word "acd" breaks as "a"+"cd") but
only size 2 into the looser width 19 (there "acd" breaks as "ac"+"d", which
wraps worse), so the tighter call returns the larger size 3 > 2. -/
theorem fitText_mono_cx :
    (fitText fontCx4 3 2 15 2 true ('d' :: ' ' :: 'a' :: 'c' :: 'd' :: [])).1 = 3 ∧
    (fitText fontCx4 3 2 19 2 true ('d' :: ' ' :: 'a' :: 'c' :: 'd' :: [])).1 = 2 ∧
    ¬ ((fitText fontCx4 3 2 15 2 true ('d' :: ' ' :: 'a' :: 'c' :: 'd' :: [])).1 ≤
        (fitText fontCx4 3 2 19 2 true ('d' :: ' ' :: 'a' :: 'c' :: 'd' :: [])).1) := by
  have h1 : (fitText fontCx4 3 2 15 2 true ('d' :: ' ' :: 'a' :: 'c' :: 'd' :: [])).1 = 3 := by
    simp +decide [fitText, fitLoop, sizeList, descend, List.findSome?, wrapLines, splitWS,
      wsChar, wrapLoop_cons_eq, wrapLoop_nil_eq, textWidth, fontCx4, breakLongWord, breakCore,
      truncFallback, orTruthy]
    norm_num
    simp +decide [fitText, fitLoop, sizeList, descend, List.findSome?, wrapLines, splitWS,
      wsChar, wrapLoop_cons_eq, wrapLoop_nil_eq, textWidth, fontCx4, breakLongWord, breakCore,
      truncFallback, orTruthy]
    norm_num
  have h2 : (fitText fontCx4 3 2 19 2 true ('d' :: ' ' :: 'a' :: 'c' :: 'd' :: [])).1 = 2 := by
    simp +decide [fitText, fitLoop, sizeList, descend, List.findSome?, wrapLines, splitWS,
      wsChar, wrapLoop_cons_eq, wrapLoop_nil_eq, textWidth, fontCx4, breakLongWord, breakCore,
      truncFallback, orTruthy]
    norm_num
    simp +decide [fitText, fitLoop, sizeList, descend, List.findSome?, wrapLines, splitWS,
      wsChar, wrapLoop_cons_eq, wrapLoop_nil_eq, textWidth, fontCx4, breakLongWord, breakCore,
      truncFallback, orTruthy]
    norm_num
  refine ⟨h1, h2, ?_⟩
  rw [h1, h2]
  omega

/-- Witness for the amended C4 at concrete inputs. -/
theorem fitText_mono_witness :
    (fitText fontOne 3 2 10 2 false ('a' :: [])).1 ≤
      (fitText fontOne 3 2 20 3 false ('a' :: [])).1 :=
  fitText_mono fontOne 3 2 10 20 2 3 ('a' :: []) (fun c => by simp [fontOne])
    (by norm_num) (by norm_num)
